import Mathlib

/-!
Verification of the bl4-save-tools extraction scripts
(`scripts/extract_yaml.py`, `scripts/extract_lists.py`, `scripts/update_blobs.py`).

Python strings are modelled as `List Char` (code-point sequences), so that
Python's code-point-wise string comparison and ASCII lowercasing are
executable and kernel-reducible.  Python's `sorted`/`list.sort` (a stable
sort) is modelled by Mathlib's `List.insertionSort`, which has the same
stability property: an element is placed before every later element whose
key is `≥` its own.

The YAML value universe manipulated by the scripts (the result of
`yaml.safe_load`) is modelled by the nested inductive type `Value`:
scalars (string / int / bool / null), lists, and insertion-ordered
mappings with string keys (Python `dict`s, modelled as association lists).
-/

namespace BL4

/-- A Python string: a sequence of code points. -/
abbrev Str := List Char

/-- Python's `<` on strings: lexicographic comparison of code points,
a strict prefix being smaller. -/
def strLtb : Str → Str → Bool
  | [], [] => false
  | [], _ :: _ => true
  | _ :: _, [] => false
  | a :: as, b :: bs =>
    if a.toNat < b.toNat then true
    else if b.toNat < a.toNat then false
    else strLtb as bs

/-- Python's `<=` on strings. -/
def strLeb (a b : Str) : Bool := !strLtb b a

/-- Python's `str.lower()` (ASCII range, which covers all data handled by
the scripts). -/
def strLower (s : Str) : Str := s.map Char.toLower

/-- Python's `sorted(l, key=...)` / `l.sort(key=...)` with a string-valued
key function: a stable sort comparing keys with `strLeb`. -/
def sortByKey {α : Type} (key : α → Str) (l : List α) : List α :=
  l.insertionSort (fun a b => strLeb (key a) (key b) = true)

/-- The YAML value universe produced by `yaml.safe_load`: scalars,
sequences, and insertion-ordered mappings. -/
inductive Value where
  | vstr (s : Str)
  | vint (n : Int)
  | vbool (b : Bool)
  | vnull
  | vlist (xs : List Value)
  | vmap (kvs : List (Str × Value))

mutual
/-- Python `==` on values.  (Approximation: Python compares `dict`s
key-set-wise rather than in insertion order, and identifies `True` with
`1`; neither corner is exercised by the data or claims here.) -/
def beqV : Value → Value → Bool
  | .vstr a, .vstr b => a == b
  | .vint a, .vint b => a == b
  | .vbool a, .vbool b => a == b
  | .vnull, .vnull => true
  | .vlist a, .vlist b => beqL a b
  | .vmap a, .vmap b => beqP a b
  | _, _ => false

/-- Python `==` on lists of values. -/
def beqL : List Value → List Value → Bool
  | [], [] => true
  | a :: as, b :: bs => beqV a b && beqL as bs
  | _, _ => false

/-- Python `==` on mappings, in insertion order. -/
def beqP : List (Str × Value) → List (Str × Value) → Bool
  | [], [] => true
  | (k, v) :: as, (l, w) :: bs => k == l && beqV v w && beqP as bs
  | _, _ => false
end

/-- `str(n)` for a Python integer. -/
def intChars : Int → Str
  | .ofNat m => Nat.toDigits 10 m
  | .negSucc m => '-' :: Nat.toDigits 10 (m + 1)

/-- Comma-and-space separator used by Python's container rendering. -/
def commaSep (pieces : List Str) : Str := List.intercalate [',', ' '] pieces

/-- The single-quote character, as used by Python `repr` of a string. -/
def quoteChar : Char := Char.ofNat 39

/-- Opening brace character. -/
def obraceChar : Char := Char.ofNat 123

/-- Closing brace character. -/
def cbraceChar : Char := Char.ofNat 125

mutual
/-- Python `repr` of a value (the rendering used for elements nested
inside containers).  Strings are rendered between single quotes; the
quote-escaping Python would perform for strings that themselves contain
quotes is not modelled (no claim exercises it). -/
def pyRepr : Value → Str
  | .vstr s => quoteChar :: s ++ [quoteChar]
  | .vint n => intChars n
  | .vbool b => if b then ['T', 'r', 'u', 'e'] else ['F', 'a', 'l', 's', 'e']
  | .vnull => ['N', 'o', 'n', 'e']
  | .vlist xs => '[' :: commaSep (pyReprL xs) ++ [']']
  | .vmap kvs => obraceChar :: commaSep (pyReprP kvs) ++ [cbraceChar]

/-- `repr` of each element of a list. -/
def pyReprL : List Value → List Str
  | [] => []
  | x :: xs => pyRepr x :: pyReprL xs

/-- `repr` of each `key: value` entry of a mapping. -/
def pyReprP : List (Str × Value) → List Str
  | [] => []
  | (k, v) :: rest => (quoteChar :: k ++ [quoteChar] ++ [':', ' '] ++ pyRepr v) :: pyReprP rest
end

/-- Python `str` of a value: like `repr` except that a top-level string
renders as itself, unquoted. -/
def pyStr : Value → Str
  | .vstr s => s
  | v => pyRepr v

/-- The sort key `lambda x: str(x).lower()` used by `sort_dict` and by the
fallback branch of `merge_lists`. -/
def renderKey (v : Value) : Str := strLower (pyStr v)

/-- `isinstance(x, str)`. -/
def isStr : Value → Bool
  | .vstr _ => true
  | _ => false

/-- The underlying string of a string value (only applied under `isStr`). -/
def getStr : Value → Str
  | .vstr s => s
  | _ => []

/-- Python dict assignment `m[k] = v` on an association list: replaces the
value at an existing key in place, otherwise appends the binding. -/
def setK {β : Type} (k : Str) (v : β) : List (Str × β) → List (Str × β)
  | [] => [(k, v)]
  | (k2, v2) :: rest => if k = k2 then (k, v) :: rest else (k2, v2) :: setK k v rest

/-- Python `k in m` / `m[k]` on an association list. -/
def lookupK {β : Type} (k : Str) : List (Str × β) → Option β
  | [] => none
  | (k2, v) :: rest => if k = k2 then some v else lookupK k rest

/-- `extract_yaml.merge_lists`, string branch, first loop:
`for x in old_list: mapping[x.lower()] = x` (later occurrences overwrite
earlier ones, keeping the first occurrence's position). -/
def stringIndexOld (old_list : List Value) : List (Str × Value) :=
  old_list.foldl (fun m x => setK (strLower (getStr x)) x m) []

/-- `extract_yaml.merge_lists`, string branch, second loop:
`for x in new_list: if x.lower() not in mapping: mapping[x.lower()] = x`. -/
def stringIndex (old_list new_list : List Value) : List (Str × Value) :=
  new_list.foldl
    (fun m x =>
      if (lookupK (strLower (getStr x)) m).isSome then m
      else m ++ [(strLower (getStr x), x)])
    (stringIndexOld old_list)

/-- `extract_yaml.merge_lists`, fallback branch, dedup loop: start from
`old_list` and append each item of `new_list` not `==`-equal to an item
already collected. -/
def fallbackDedup (old_list new_list : List Value) : List Value :=
  new_list.foldl
    (fun merged item =>
      if merged.any (fun e => beqV item e) then merged else merged ++ [item])
    old_list

/-- `extract_yaml.merge_lists`.  In the string branch the index values are
sorted by `x.lower()`.  In the fallback branch the code wraps the sort in
`try/except`, but the sort key `str(x).lower()` is always a string and
strings are always mutually comparable, so the `except` arm is
unreachable and the sort is modelled unconditionally. -/
def merge_lists (old_list new_list : List Value) : List Value :=
  if (old_list ++ new_list).all isStr then
    sortByKey (fun v => strLower (getStr v)) ((stringIndex old_list new_list).map Prod.snd)
  else
    sortByKey renderKey (fallbackDedup old_list new_list)

/-- The key-sort applied by both `merge_yaml` (at the end of each level)
and `sort_dict` (to the keys of a mapping): a stable sort by
`key.lower()`. -/
def sortPairs (l : List (Str × Value)) : List (Str × Value) :=
  sortByKey (fun p => strLower p.1) l

mutual
/-- The loop of `extract_yaml.merge_yaml` over `new.items()`, threading
the mutated `existing` through. -/
def mergeInto (existing : List (Str × Value)) : List (Str × Value) → List (Str × Value)
  | [] => existing
  | (k, nv) :: rest => mergeInto (mergeKey existing k nv) rest

/-- One iteration of the `merge_yaml` loop, for the incoming binding
`k : nv`: absent keys are appended as-is; dict/dict recurses; list/list
goes through `merge_lists`; a scalar existing value is overwritten
unconditionally; an existing dict or list paired with an incompatible
incoming value is kept unchanged. -/
def mergeKey (existing : List (Str × Value)) (k : Str) (nv : Value) : List (Str × Value) :=
  match lookupK k existing with
  | none => existing ++ [(k, nv)]
  | some old_val =>
    match old_val with
    | .vmap o =>
      match nv with
      | .vmap n => setK k (.vmap (sortPairs (mergeInto o n))) existing
      | _ => existing
    | .vlist o =>
      match nv with
      | .vlist n => setK k (.vlist (merge_lists o n)) existing
      | _ => existing
    | _ => setK k nv existing
end

/-- `extract_yaml.merge_yaml`: merge `new` into `existing`, then re-sort
the keys of the resulting level case-insensitively. -/
def merge_yaml (existing new : List (Str × Value)) : List (Str × Value) :=
  sortPairs (mergeInto existing new)

mutual
/-- `extract_yaml.sort_dict`: mappings have their keys sorted
case-insensitively and their values canonicalized recursively; lists are
canonicalized elementwise and then sorted by `str(x).lower()` (the
`except TypeError` arm of the source is unreachable, because the sort key
is always a string); scalars are returned unchanged.  The source sorts a
mapping's keys before recursing into the values; since the key-sort
never inspects values and the recursion never touches keys, the two
steps commute, and they are applied here in the opposite order (the
source's order is recovered as `sort_dict_source_order` below). -/
def sort_dict : Value → Value
  | .vmap kvs => .vmap (sortPairs (sortDictPairs kvs))
  | .vlist xs => .vlist (sortByKey renderKey (sortDictList xs))
  | v => v

/-- `sort_dict` applied to each element of a list. -/
def sortDictList : List Value → List Value
  | [] => []
  | x :: xs => sort_dict x :: sortDictList xs

/-- `sort_dict` applied to each value of a mapping. -/
def sortDictPairs : List (Str × Value) → List (Str × Value)
  | [] => []
  | (k, v) :: rest => (k, sort_dict v) :: sortDictPairs rest
end

mutual
/-- The scalar leaves reachable from a value, in left-to-right order. -/
def scalarsV : Value → List Value
  | .vlist xs => scalarsL xs
  | .vmap kvs => scalarsP kvs
  | v => [v]

/-- Scalar leaves of a list of values. -/
def scalarsL : List Value → List Value
  | [] => []
  | x :: xs => scalarsV x ++ scalarsL xs

/-- Scalar leaves of the values of a mapping. -/
def scalarsP : List (Str × Value) → List Value
  | [] => []
  | (_, v) :: rest => scalarsV v ++ scalarsP rest
end

/-! ## Codec

The scripts serialize the merged tree with `yaml.safe_dump`, compress the
UTF-8 bytes with `zlib.compress`, and base64-encode the result; the
line-list path compresses a comma-joined string instead of a dump.
`yaml.safe_dump`/`yaml.safe_load` (PyYAML), the UTF-8 codec and zlib are
external libraries, not code of this repository, so they are modelled
from the spec's contracts for them (§4.4: each stage is lossless and
exactly inverted by its counterpart).  base64 is implemented genuinely. -/

mutual
/-- Modelled from the spec: `yaml.safe_dump`, the external serializer.
The spec requires only that serialization be deterministic and lossless
for the Value model; the concrete grammar is an external formatting
concern.  This model uses a prefix grammar with unary length/magnitude
markers so that the inverse parser is directly definable. -/
def serializeV : Value → List Char
  | .vstr s => 's' :: List.replicate s.length '#' ++ ':' :: s
  | .vint (.ofNat m) => 'i' :: '+' :: List.replicate m '1' ++ [';']
  | .vint (.negSucc m) => 'i' :: '-' :: List.replicate (m + 1) '1' ++ [';']
  | .vbool true => ['T']
  | .vbool false => ['F']
  | .vnull => ['N']
  | .vlist xs => '[' :: serializeL xs ++ [']']
  | .vmap kvs => obraceChar :: serializeP kvs ++ [cbraceChar]

/-- Serialized elements of a list, concatenated. -/
def serializeL : List Value → List Char
  | [] => []
  | x :: xs => serializeV x ++ serializeL xs

/-- Serialized entries of a mapping, concatenated. -/
def serializeP : List (Str × Value) → List Char
  | [] => []
  | (k, v) :: rest =>
    'k' :: List.replicate k.length '#' ++ ':' :: k ++ serializeV v ++ serializeP rest
end

/-- Count the leading occurrences of `c`. -/
def parseCount (c : Char) : List Char → Nat × List Char
  | [] => (0, [])
  | x :: xs =>
    if x = c then
      let r := parseCount c xs
      (r.1 + 1, r.2)
    else (0, x :: xs)

/-- Split off exactly `n` characters, failing on short input. -/
def takeChars : Nat → List Char → Option (List Char × List Char)
  | 0, cs => some ([], cs)
  | _ + 1, [] => none
  | n + 1, c :: cs => (takeChars n cs).map (fun r => (c :: r.1, r.2))

/-- Parse a unary-length-prefixed string body (`###...:payloadchars`). -/
def parseStrBody (cs : List Char) : Option (Str × List Char) :=
  let r := parseCount '#' cs
  match r.2 with
  | ':' :: rest => takeChars r.1 rest
  | _ => none

/-- Parse a signed unary integer body (`+111...;` or `-111...;`). -/
def parseIntBody (cs : List Char) : Option (Int × List Char) :=
  match cs with
  | '+' :: rest =>
    match parseCount '1' rest with
    | (m, ';' :: rest2) => some ((m : Int), rest2)
    | _ => none
  | '-' :: rest =>
    match parseCount '1' rest with
    | (m, ';' :: rest2) => if m = 0 then none else some (-(m : Int), rest2)
    | _ => none
  | _ => none

mutual
/-- Modelled from the spec: the parse side of the external serializer
(used, per §4.4, only to state the round-trip guarantee).  Fuel-indexed
recursive descent for the grammar of `serializeV`. -/
def parseV : Nat → List Char → Option (Value × List Char)
  | 0, _ => none
  | _ + 1, [] => none
  | fuel + 1, c :: cs =>
    if c = 's' then (parseStrBody cs).map (fun r => (.vstr r.1, r.2))
    else if c = 'i' then (parseIntBody cs).map (fun r => (.vint r.1, r.2))
    else if c = 'T' then some (.vbool true, cs)
    else if c = 'F' then some (.vbool false, cs)
    else if c = 'N' then some (.vnull, cs)
    else if c = '[' then (parseItems fuel cs).map (fun r => (.vlist r.1, r.2))
    else if c = obraceChar then (parseEntries fuel cs).map (fun r => (.vmap r.1, r.2))
    else none

/-- Parse list elements up to the closing bracket. -/
def parseItems : Nat → List Char → Option (List Value × List Char)
  | 0, _ => none
  | _ + 1, [] => none
  | fuel + 1, c :: cs =>
    if c = ']' then some ([], cs)
    else
      match parseV fuel (c :: cs) with
      | none => none
      | some (v, rest) =>
        match parseItems fuel rest with
        | none => none
        | some (vs, rest2) => some (v :: vs, rest2)

/-- Parse mapping entries up to the closing brace. -/
def parseEntries : Nat → List Char → Option (List (Str × Value) × List Char)
  | 0, _ => none
  | _ + 1, [] => none
  | fuel + 1, c :: cs =>
    if c = cbraceChar then some ([], cs)
    else if c = 'k' then
      match parseStrBody cs with
      | none => none
      | some (k, rest) =>
        match parseV fuel rest with
        | none => none
        | some (v, rest2) =>
          match parseEntries fuel rest2 with
          | none => none
          | some (es, rest3) => some ((k, v) :: es, rest3)
    else none
end

mutual
/-- Fuel sufficient for `parseV` on the serialization of a value. -/
def costV : Value → Nat
  | .vlist xs => 1 + costL xs
  | .vmap kvs => 1 + costP kvs
  | _ => 1

/-- Fuel sufficient for `parseItems` on serialized list elements. -/
def costL : List Value → Nat
  | [] => 1
  | x :: xs => 1 + costV x + costL xs

/-- Fuel sufficient for `parseEntries` on serialized mapping entries. -/
def costP : List (Str × Value) → Nat
  | [] => 1
  | (_, v) :: rest => 1 + costV v + costP rest
end

/-- Parse a complete serialized value, requiring all input consumed.
The fuel `2 * cs.length + 2` dominates `costV v` for every serialized
value `v` (proved below). -/
def deserializeV (cs : List Char) : Option Value :=
  match parseV (2 * cs.length + 2) cs with
  | some (v, []) => some v
  | _ => none

/-- Modelled from the spec: the UTF-8 text encoding composed with
`zlib.compress` — external codecs contracted (§4.4) only to be lossless
byte transforms exactly inverted by their counterparts.  Modelled as a
fixed-width (3-bytes-per-code-point) character encoding; zlib's actual
bit-stream format is irrelevant to every claim. -/
def textBytes : List Char → List Nat
  | [] => []
  | c :: cs => c.toNat / 65536 :: c.toNat / 256 % 256 :: c.toNat % 256 :: textBytes cs

/-- Modelled from the spec: the inverse of `textBytes`
(`zlib.decompress` then UTF-8 decode). -/
def textOfBytes : List Nat → Option (List Char)
  | [] => some []
  | b1 :: b2 :: b3 :: rest =>
    (textOfBytes rest).map (fun cs => Char.ofNat (b1 * 65536 + b2 * 256 + b3) :: cs)
  | _ => none

/-- The base64 alphabet, in index order. -/
def b64Alphabet : List Char :=
  ['A', 'B', 'C', 'D', 'E', 'F', 'G', 'H', 'I', 'J', 'K', 'L', 'M',
   'N', 'O', 'P', 'Q', 'R', 'S', 'T', 'U', 'V', 'W', 'X', 'Y', 'Z',
   'a', 'b', 'c', 'd', 'e', 'f', 'g', 'h', 'i', 'j', 'k', 'l', 'm',
   'n', 'o', 'p', 'q', 'r', 's', 't', 'u', 'v', 'w', 'x', 'y', 'z',
   '0', '1', '2', '3', '4', '5', '6', '7', '8', '9', '+', '/']

/-- The character for a six-bit group. -/
def b64Char (n : Nat) : Char := b64Alphabet.getD n 'A'

/-- The six-bit group for a base64 character. -/
def b64Index (c : Char) : Option Nat := b64Alphabet.findIdx? (fun a => a = c)

/-- `base64.b64encode`: three bytes become four alphabet characters, with
`=`-padding for a short final group. -/
def b64encode : List Nat → List Char
  | [] => []
  | [b1] => [b64Char (b1 / 4), b64Char (b1 % 4 * 16), '=', '=']
  | [b1, b2] => [b64Char (b1 / 4), b64Char (b1 % 4 * 16 + b2 / 16), b64Char (b2 % 16 * 4), '=']
  | b1 :: b2 :: b3 :: rest =>
    b64Char (b1 / 4) :: b64Char (b1 % 4 * 16 + b2 / 16) ::
      b64Char (b2 % 16 * 4 + b3 / 64) :: b64Char (b3 % 64) :: b64encode rest

/-- `base64.b64decode` on well-formed input (four-character groups,
`=`-padding only at the end). -/
def b64decode : List Char → Option (List Nat)
  | [] => some []
  | c1 :: c2 :: c3 :: c4 :: rest =>
    match b64Index c1, b64Index c2 with
    | some s1, some s2 =>
      if c3 = '=' then
        if c4 = '=' ∧ rest = [] then some [s1 * 4 + s2 / 16] else none
      else
        match b64Index c3 with
        | some s3 =>
          if c4 = '=' then
            if rest = [] then some [s1 * 4 + s2 / 16, s2 % 16 * 16 + s3 / 4] else none
          else
            match b64Index c4 with
            | some s4 =>
              (b64decode rest).map
                (fun bs => (s1 * 4 + s2 / 16) :: (s2 % 16 * 16 + s3 / 4) :: (s3 % 4 * 64 + s4) :: bs)
            | none => none
        | none => none
    | _, _ => none
  | _ => none

/-- The full tree-path encode chain of `write_yaml_and_compressed` /
`compress_yaml_file`: serialize, compress, base64. -/
def encodeTree (kvs : List (Str × Value)) : List Char :=
  b64encode (textBytes (serializeV (.vmap kvs)))

/-- The conceptual inverse chain: base64-decode, decompress, parse. -/
def decodeTree (cs : List Char) : Option (List (Str × Value)) :=
  (b64decode cs).bind fun bs =>
    (textOfBytes bs).bind fun txt =>
      match deserializeV txt with
      | some (.vmap kvs) => some kvs
      | _ => none

/-- The line-list-path encode chain of `extract_and_merge`: compress and
base64 the comma-joined string itself. -/
def encodeText (s : List Char) : List Char :=
  b64encode (textBytes s)

/-- The inverse of `encodeText`. -/
def decodeText (cs : List Char) : Option (List Char) :=
  (b64decode cs).bind textOfBytes

/-! ## Script-run models

State-passing models of the file effects and exit codes of the three
scripts, for the error-handling and frame claims. -/

/-- The contents of `blobs.js`, abstracted to its constant bindings
(`const NAME = '...';`). -/
structure BlobsFile where
  consts : List (Str × Str)

/-- `update_blobs.update_blob_constant`: `False` if the file is missing
or the constant's binding cannot be found, otherwise replace the bound
literal and report `True`.  (The `new_content == content` no-op case also
reports `True`.) -/
def update_blob_constant : Option BlobsFile → Str → Str → Bool × Option BlobsFile
  | none, _, _ => (false, none)
  | some f, name, val =>
    match lookupK name f.consts with
    | none => (false, some f)
    | some _ => (true, some ⟨setK name val f.consts⟩)

/-- The files touched by an `extract_yaml.py` run for one subtree kind. -/
structure YState where
  yamlFile : Option (List (Str × Value))
  compFile : Option (List Char)
  blobs : Option BlobsFile

/-- `extract_yaml.write_yaml_and_compressed`: merge with the existing
artifact if present, write the primary artifact, then (if requested)
write the compressed artifact and finally call the publisher — whose
`Bool` result the script discards, exactly as in the source. -/
def write_yaml_and_compressed (obj : List (Str × Value)) (compressed : Bool)
    (blobConst : Option Str) (st : YState) : YState :=
  let merged :=
    match st.yamlFile with
    | some existing => merge_yaml existing obj
    | none => obj
  let st1 : YState := { st with yamlFile := some merged }
  if compressed then
    let b64 := encodeTree merged
    let st2 : YState := { st1 with compFile := some b64 }
    match blobConst with
    | some c => { st2 with blobs := (update_blob_constant st2.blobs c b64).2 }
    | none => st2
  else st1

/-- The `extract_yaml.py` driver around one `write_yaml_and_compressed`
call: the script never inspects the publisher's result, so a run that
reaches the write always finishes with exit code 0. -/
def extract_yaml_run (obj : List (Str × Value)) (compressed : Bool)
    (blobConst : Option Str) (st : YState) : Nat × YState :=
  (0, write_yaml_and_compressed obj compressed blobConst st)

/-- `update_blobs.main` after the input value has been computed: exit 1
on an empty value, otherwise exit 0 exactly when `update_blob_constant`
succeeds. -/
def update_blobs_main (blobs : Option BlobsFile) (constant val : Str) : Nat × Option BlobsFile :=
  if val = [] then (1, blobs)
  else
    let r := update_blob_constant blobs constant val
    (if r.1 then 0 else 1, r.2)

/-- The files touched by an `extract_lists.py` run. -/
structure LState where
  textFile : Option (List Str)
  compFile : Option (List Char)
  blobs : Option BlobsFile

/-- Python `sorted` on strings (no key function). -/
def sortStrs (l : List Str) : List Str :=
  l.insertionSort (fun a b => strLeb a b = true)

/-- The set of entries read back from the output text file: its
non-empty (stripped) lines.  Python's `set` is modelled by
`List.dedup`; every downstream use is order-insensitive because the
merged entries are sorted before use. -/
def existingEntries : Option (List Str) → List Str
  | some lines => (lines.filter (fun l => l ≠ [])).dedup
  | none => []

/-- `extract_lists.extract_and_merge` after the new entries have been
extracted: read the existing entries (non-empty lines) as a set, union
in the new entries, and if nothing was added return before any write;
otherwise write the sorted merged lines, write the compressed artifact
(always — a default path is derived when none was given), and call the
publisher, discarding its result. -/
def extract_and_merge (newEntries : List Str) (blobConst : Option Str) (st : LState) : LState :=
  let existing := existingEntries st.textFile
  let allEntries := (existing ++ newEntries).dedup
  let addedCount := allEntries.length - existing.length
  if addedCount = 0 then st
  else
    let sortedAll := sortStrs allEntries
    let st1 : LState := { st with textFile := some sortedAll }
    let b64 := encodeText (List.intercalate [','] sortedAll)
    let st2 : LState := { st1 with compFile := some b64 }
    match blobConst with
    | some c => { st2 with blobs := (update_blob_constant st2.blobs c b64).2 }
    | none => st2

/-! ## Auxiliary notions used by the theorem statements -/

/-- Case-sensitively duplicate-free keys (the invariant every Python
`dict` satisfies by construction). -/
def nodupKeysB {β : Type} : List (Str × β) → Bool
  | [] => true
  | (k, _) :: rest => !(rest.any (fun p => p.1 == k)) && nodupKeysB rest

/-- No two elements with the same lowercased string content. -/
def nodupLowerB : List Value → Bool
  | [] => true
  | x :: xs =>
    !(xs.any (fun y => strLower (getStr y) == strLower (getStr x))) && nodupLowerB xs

mutual
/-- Trees on which self-merge reproduces canonicalization: every mapping
has duplicate-free keys (true of all `yaml.safe_load` output) and every
list consists of strings with pairwise distinct lowercasings. -/
def goodV : Value → Bool
  | .vstr _ => true
  | .vint _ => true
  | .vbool _ => true
  | .vnull => true
  | .vlist xs => xs.all isStr && nodupLowerB xs
  | .vmap kvs => nodupKeysB kvs && goodP kvs

/-- `goodV` for every value of a mapping. -/
def goodP : List (Str × Value) → Bool
  | [] => true
  | (_, v) :: rest => goodV v && goodP rest
end

/-- `isinstance(x, dict)`. -/
def isMapB : Value → Bool
  | .vmap _ => true
  | _ => false

/-- `isinstance(x, list)`. -/
def isListB : Value → Bool
  | .vlist _ => true
  | _ => false

/-- What one `merge_yaml` loop iteration makes of a binding whose
existing and incoming values coincide. -/
def mergeSelf : Value → Value
  | .vmap o => .vmap (merge_yaml o o)
  | .vlist o => .vlist (merge_lists o o)
  | v => v

/-- Apply a function to every value of an association list. -/
def mapVals (f : Value → Value) (l : List (Str × Value)) : List (Str × Value) :=
  l.map (fun p => (p.1, f p.2))

/-- The last element satisfying a predicate, if any. -/
def lastWith {α : Type} (p : α → Bool) : List α → Option α
  | [] => none
  | x :: l =>
    match lastWith p l with
    | some y => some y
    | none => if p x then some x else none

/-- The canonical casing `merge_lists` keeps for the lowercase key `k`:
the last occurrence in the existing list if `k` occurs there, otherwise
the first occurrence in the incoming list. -/
def casingFor (old_list new_list : List Value) (k : Str) : Option Value :=
  match lastWith (fun x => strLower (getStr x) == k) old_list with
  | some x => some x
  | none => new_list.find? (fun x => strLower (getStr x) == k)

/-! ## Order lemmas for the string comparison -/

theorem strLtb_asymm : ∀ a b : Str, strLtb a b = true → strLtb b a = false
  | [], [], h => by simp [strLtb] at h
  | [], _ :: _, _ => by simp [strLtb]
  | _ :: _, [], h => by simp [strLtb] at h
  | a :: as, b :: bs, h => by
    simp only [strLtb] at h ⊢
    rcases Nat.lt_trichotomy a.toNat b.toNat with hab | hab | hab
    · simp [hab, Nat.lt_asymm hab]
    · simp only [hab, Nat.lt_irrefl, if_false] at h ⊢
      exact strLtb_asymm as bs h
    · simp [hab, Nat.lt_asymm hab] at h

theorem strLtb_resolve : ∀ a b c : Str,
    strLtb a c = true → strLtb a b = true ∨ strLtb b c = true
  | [], b, c, h => by
    cases c with
    | nil => simp [strLtb] at h
    | cons c cs =>
      cases b with
      | nil => right; simpa using h
      | cons b bs => left; simp [strLtb]
  | _ :: _, b, [], h => by simp [strLtb] at h
  | a :: as, b, c :: cs, h => by
    cases b with
    | nil => right; simp [strLtb]
    | cons b bs =>
      simp only [strLtb] at h ⊢
      rcases Nat.lt_trichotomy a.toNat b.toNat with hab | hab | hab
      · left; simp [hab]
      · rcases Nat.lt_trichotomy b.toNat c.toNat with hbc | hbc | hbc
        · right; simp [hbc]
        · have hac : ¬ a.toNat < c.toNat := by omega
          have hca : ¬ c.toNat < a.toNat := by omega
          simp only [hac, if_false, hca] at h
          rcases strLtb_resolve as bs cs h with h' | h'
          · left; simp [hab, h']
          · right; simp [hbc, h']
        · rcases Nat.lt_trichotomy a.toNat c.toNat with hac | hac | hac
          · left; simp [hab]; omega
          · left; simp [hab]; omega
          · simp [Nat.lt_asymm hac, hac] at h
      · rcases Nat.lt_trichotomy a.toNat c.toNat with hac | hac | hac
        · right; simp [strLtb]; omega
        · right; simp [strLtb]; omega
        · simp [Nat.lt_asymm hac, hac] at h

theorem strLeb_total (a b : Str) : strLeb a b = true ∨ strLeb b a = true := by
  unfold strLeb
  rcases h : strLtb b a with _ | _
  · left; rfl
  · right; simp [strLtb_asymm _ _ h]

theorem strLeb_trans {a b c : Str} (h1 : strLeb a b = true) (h2 : strLeb b c = true) :
    strLeb a c = true := by
  unfold strLeb at h1 h2 ⊢
  rcases h : strLtb c a with _ | _
  · rfl
  · rcases strLtb_resolve c b a h with h' | h' <;> simp_all

/-! ## Generic facts about the stable key-sort -/

theorem sortByKey_perm {α : Type} (key : α → Str) (l : List α) :
    List.Perm (sortByKey key l) l :=
  List.perm_insertionSort _ l

theorem sortByKey_mem {α : Type} {key : α → Str} {l : List α} {x : α} :
    x ∈ sortByKey key l ↔ x ∈ l :=
  (sortByKey_perm key l).mem_iff

theorem sortByKey_sorted {α : Type} (key : α → Str) (l : List α) :
    (sortByKey key l).Pairwise (fun a b => strLeb (key a) (key b) = true) := by
  haveI : IsTotal α (fun a b => strLeb (key a) (key b) = true) :=
    ⟨fun a b => strLeb_total (key a) (key b)⟩
  haveI : IsTrans α (fun a b => strLeb (key a) (key b) = true) :=
    ⟨fun _ _ _ h1 h2 => strLeb_trans h1 h2⟩
  exact List.sorted_insertionSort _ l

theorem sortByKey_eq_of_sorted {α : Type} {key : α → Str} {l : List α}
    (h : l.Pairwise (fun a b => strLeb (key a) (key b) = true)) :
    sortByKey key l = l :=
  List.Sorted.insertionSort_eq h

theorem sortByKey_idem {α : Type} (key : α → Str) (l : List α) :
    sortByKey key (sortByKey key l) = sortByKey key l :=
  sortByKey_eq_of_sorted (sortByKey_sorted key l)

theorem orderedInsert_congr {α : Type} {r1 r2 : α → α → Prop}
    [DecidableRel r1] [DecidableRel r2] {x : α} :
    ∀ {l : List α}, (∀ b ∈ l, r1 x b ↔ r2 x b) →
      l.orderedInsert r1 x = l.orderedInsert r2 x
  | [], _ => rfl
  | b :: l, h => by
    simp only [List.orderedInsert]
    by_cases hb : r1 x b
    · rw [if_pos hb, if_pos ((h b (List.mem_cons_self b l)).1 hb)]
    · rw [if_neg hb, if_neg (fun hc => hb ((h b (List.mem_cons_self b l)).2 hc)),
        orderedInsert_congr (fun b' hb' => h b' (List.mem_cons_of_mem b hb'))]

theorem sortByKey_congr {α : Type} {key1 key2 : α → Str} :
    ∀ {l : List α}, (∀ x ∈ l, key1 x = key2 x) →
      sortByKey key1 l = sortByKey key2 l
  | [], _ => rfl
  | x :: l, h => by
    have ih := @sortByKey_congr α key1 key2 l (fun y hy => h y (List.mem_cons_of_mem x hy))
    simp only [sortByKey, List.insertionSort] at ih ⊢
    rw [ih]
    exact orderedInsert_congr (fun b hb => by
      have hbl : b ∈ l := (List.perm_insertionSort _ l).mem_iff.1 hb
      rw [h x (List.mem_cons_self x l), h b (List.mem_cons_of_mem x hbl)])

theorem sortByKey_map {α β : Type} (f : α → β) (keyA : α → Str) (keyB : β → Str)
    (l : List α) (hk : ∀ a ∈ l, keyB (f a) = keyA a) :
    (sortByKey keyA l).map f = sortByKey keyB (l.map f) := by
  unfold sortByKey
  exact List.map_insertionSort _ _ f l (fun a ha b hb => by rw [hk a ha, hk b hb])

/-! ## Reflexivity of the value equality test, and a disequality helper -/

mutual
theorem beqV_refl : ∀ v : Value, beqV v v = true
  | .vstr _ => by simp [beqV]
  | .vint _ => by simp [beqV]
  | .vbool _ => by simp [beqV]
  | .vnull => by simp [beqV]
  | .vlist xs => by simp [beqV, beqL_refl xs]
  | .vmap kvs => by simp [beqV, beqP_refl kvs]

theorem beqL_refl : ∀ xs : List Value, beqL xs xs = true
  | [] => by simp [beqL]
  | x :: xs => by simp [beqL, beqV_refl x, beqL_refl xs]

theorem beqP_refl : ∀ kvs : List (Str × Value), beqP kvs kvs = true
  | [] => by simp [beqP]
  | (_, v) :: rest => by simp [beqP, beqV_refl v, beqP_refl rest]
end

theorem ne_of_beqV_false {a b : Value} (h : beqV a b = false) : a ≠ b := by
  intro he
  rw [he, beqV_refl b] at h
  exact Bool.noConfusion h

theorem ne_of_beqL_false {a b : List Value} (h : beqL a b = false) : a ≠ b := by
  intro he
  rw [he, beqL_refl b] at h
  exact Bool.noConfusion h

theorem ne_of_beqP_false {a b : List (Str × Value)} (h : beqP a b = false) : a ≠ b := by
  intro he
  rw [he, beqP_refl b] at h
  exact Bool.noConfusion h

/-! ## A strong induction principle for the nested value type -/

theorem valueInd (P : Value → Prop)
    (h1 : ∀ s, P (.vstr s)) (h2 : ∀ n, P (.vint n))
    (h3 : ∀ b, P (.vbool b)) (h4 : P .vnull)
    (h5 : ∀ xs, (∀ x ∈ xs, P x) → P (.vlist xs))
    (h6 : ∀ kvs, (∀ p ∈ kvs, P p.2) → P (.vmap kvs)) : ∀ v, P v
  | .vstr s => h1 s
  | .vint n => h2 n
  | .vbool b => h3 b
  | .vnull => h4
  | .vlist xs => h5 xs (fun x hx => valueInd P h1 h2 h3 h4 h5 h6 x)
  | .vmap kvs => h6 kvs (fun p hp => valueInd P h1 h2 h3 h4 h5 h6 p.2)
termination_by v => sizeOf v
decreasing_by
  · have := List.sizeOf_lt_of_mem hx
    simp only [Value.vlist.sizeOf_spec]
    omega
  · have h := List.sizeOf_lt_of_mem hp
    obtain ⟨k, v⟩ := p
    simp only [Prod.mk.sizeOf_spec] at h
    simp only [Value.vmap.sizeOf_spec]
    omega

/-! ## Association-list lemmas -/

theorem lookupK_setK_self {β : Type} (k : Str) (v : β) :
    ∀ l : List (Str × β), lookupK k (setK k v l) = some v
  | [] => by simp [setK, lookupK]
  | (k2, v2) :: rest => by
    by_cases h : k = k2
    · simp [setK, h, lookupK]
    · simp [setK, h, lookupK, lookupK_setK_self k v rest]

theorem lookupK_setK_ne {β : Type} {k k2 : Str} (h : k ≠ k2) (v : β) :
    ∀ l : List (Str × β), lookupK k (setK k2 v l) = lookupK k l
  | [] => by simp [setK, lookupK, h]
  | (k3, v3) :: rest => by
    by_cases h2 : k2 = k3
    · subst h2
      simp [setK, lookupK, h]
    · by_cases h3 : k = k3
      · simp [setK, h2, lookupK, h3]
      · simp [setK, h2, lookupK, h3, lookupK_setK_ne h v rest]

theorem lookupK_append {β : Type} (k : Str) :
    ∀ l1 l2 : List (Str × β), lookupK k (l1 ++ l2) =
      match lookupK k l1 with
      | some v => some v
      | none => lookupK k l2
  | [], _ => by simp [lookupK]
  | (k2, v2) :: rest, l2 => by
    by_cases h : k = k2
    · simp [lookupK, h]
    · simp [lookupK, h, lookupK_append k rest l2]

theorem lookupK_eq_none_iff {β : Type} {k : Str} :
    ∀ {l : List (Str × β)}, lookupK k l = none ↔ ∀ p ∈ l, p.1 ≠ k
  | [] => by simp [lookupK]
  | (k2, v2) :: rest => by
    by_cases h : k = k2
    · subst h
      simp only [lookupK, if_pos rfl]
      constructor
      · intro hc
        exact Option.noConfusion hc
      · intro hall
        exact absurd rfl (hall (k, v2) (List.mem_cons_self _ _))
    · simp only [lookupK, if_neg h, List.mem_cons]
      rw [lookupK_eq_none_iff]
      constructor
      · rintro hr p (rfl | hp)
        · exact fun hc => h hc.symm
        · exact hr p hp
      · intro hall p hp
        exact hall p (Or.inr hp)

theorem setK_keys_of_lookup {β : Type} {k : Str} (v : β) :
    ∀ {l : List (Str × β)}, lookupK k l ≠ none →
      (setK k v l).map Prod.fst = l.map Prod.fst
  | [], h => absurd rfl h
  | (k2, v2) :: rest, h => by
    by_cases he : k = k2
    · subst he
      simp [setK]
    · simp only [lookupK, if_neg he] at h
      simp [setK, he, setK_keys_of_lookup v h]

/-- `nodupKeysB` is key-set nodup. -/
theorem nodupKeysB_iff {β : Type} :
    ∀ {l : List (Str × β)}, nodupKeysB l = true ↔ (l.map Prod.fst).Nodup
  | [] => by simp [nodupKeysB]
  | (k, v) :: rest => by
    simp only [nodupKeysB, List.map_cons, List.nodup_cons, Bool.and_eq_true,
      Bool.not_eq_true', List.any_eq_false, List.mem_map]
    rw [nodupKeysB_iff]
    constructor
    · rintro ⟨h1, h2⟩
      refine ⟨?_, h2⟩
      rintro ⟨p, hp, rfl⟩
      have := h1 p hp
      simp at this
    · rintro ⟨h1, h2⟩
      refine ⟨?_, h2⟩
      intro p hp
      simp only [beq_iff_eq]
      intro hc
      exact h1 ⟨p, hp, hc⟩

theorem nodupKeysB_congr_keys {β γ : Type} :
    ∀ {l : List (Str × β)} {l2 : List (Str × γ)},
      l.map Prod.fst = l2.map Prod.fst → nodupKeysB l = nodupKeysB l2 := by
  intro l l2 h
  rcases hb : nodupKeysB l2 with _ | _
  · rw [Bool.eq_false_iff]
    intro hc
    rw [nodupKeysB_iff, h, ← nodupKeysB_iff] at hc
    rw [hc] at hb
    exact Bool.noConfusion hb
  · rw [nodupKeysB_iff, h, ← nodupKeysB_iff, hb]

theorem lookupK_eq_some_of_mem {β : Type} {k : Str} {v : β} :
    ∀ {l : List (Str × β)}, (l.map Prod.fst).Nodup → (k, v) ∈ l →
      lookupK k l = some v
  | [], _, hm => by simp at hm
  | (k2, v2) :: rest, hn, hm => by
    simp only [List.map_cons, List.nodup_cons] at hn
    rcases List.mem_cons.1 hm with h | h
    · injection h with hk hv
      subst hk
      subst hv
      simp [lookupK]
    · have hne : k ≠ k2 := by
        rintro rfl
        exact hn.1 (List.mem_map.2 ⟨(k, v), h, rfl⟩)
      simp [lookupK, hne, lookupK_eq_some_of_mem hn.2 h]

theorem mem_of_lookupK_eq_some {β : Type} {k : Str} {v : β} :
    ∀ {l : List (Str × β)}, lookupK k l = some v → (k, v) ∈ l
  | [], h => by simp [lookupK] at h
  | (k2, v2) :: rest, h => by
    by_cases he : k = k2
    · subst he
      rw [lookupK, if_pos rfl] at h
      injection h with h
      subst h
      exact List.mem_cons_self _ _
    · rw [lookupK, if_neg he] at h
      exact List.mem_cons_of_mem _ (mem_of_lookupK_eq_some h)

theorem lookupK_of_perm {β : Type} {l1 l2 : List (Str × β)} (hn : nodupKeysB l1 = true)
    (hp : List.Perm l1 l2) (k : Str) : lookupK k l1 = lookupK k l2 := by
  have hn1 : (l1.map Prod.fst).Nodup := nodupKeysB_iff.1 hn
  have hn2 : (l2.map Prod.fst).Nodup := ((hp.map Prod.fst).nodup_iff).1 hn1
  rcases h1 : lookupK k l1 with _ | v
  · rcases h2 : lookupK k l2 with _ | v
    · rfl
    · have := mem_of_lookupK_eq_some h2
      have hmem := hp.mem_iff.2 this
      rw [lookupK_eq_some_of_mem hn1 hmem] at h1
      exact Option.noConfusion h1
  · exact (lookupK_eq_some_of_mem hn2 (hp.mem_iff.1 (mem_of_lookupK_eq_some h1))).symm

theorem lookupK_sortPairs {l : List (Str × Value)} (hn : nodupKeysB l = true) (k : Str) :
    lookupK k (sortPairs l) = lookupK k l :=
  (lookupK_of_perm hn (sortByKey_perm _ l).symm k).symm

theorem nodupKeysB_sortPairs {l : List (Str × Value)} :
    nodupKeysB (sortPairs l) = nodupKeysB l := by
  rw [Bool.eq_iff_iff, nodupKeysB_iff, nodupKeysB_iff]
  exact ((sortByKey_perm (fun p => strLower p.1) l).map Prod.fst).nodup_iff

/-! ## Behaviour of the merge loop on individual keys -/

theorem mergeKey_lookup_ne {e : List (Str × Value)} {k k2 : Str} (h : k ≠ k2) (nv : Value) :
    lookupK k (mergeKey e k2 nv) = lookupK k e := by
  rw [mergeKey]
  rcases hl : lookupK k2 e with _ | ov
  · rw [lookupK_append]
    rcases h2 : lookupK k e with _ | v
    · simp [lookupK, h]
    · rfl
  · cases ov <;> cases nv <;>
      first
        | rfl
        | exact lookupK_setK_ne h _ e

theorem mergeInto_lookup_notin :
    ∀ {n : List (Str × Value)} {e : List (Str × Value)} {k : Str},
      (∀ p ∈ n, p.1 ≠ k) → lookupK k (mergeInto e n) = lookupK k e
  | [], _, _, _ => rfl
  | (k2, nv) :: rest, e, k, h => by
    rw [mergeInto]
    rw [mergeInto_lookup_notin (fun p hp => h p (List.mem_cons_of_mem _ hp))]
    exact mergeKey_lookup_ne (fun hc => (h (k2, nv) (List.mem_cons_self _ _)) hc.symm) nv

theorem mergeInto_append :
    ∀ (l1 l2 e : List (Str × Value)), mergeInto e (l1 ++ l2) = mergeInto (mergeInto e l1) l2
  | [], _, _ => rfl
  | (k, nv) :: l1, l2, e => by
    rw [List.cons_append, mergeInto, mergeInto, mergeInto_append l1 l2 (mergeKey e k nv)]

theorem lookupK_split {β : Type} {k : Str} {nv : β} :
    ∀ {n : List (Str × β)}, lookupK k n = some nv →
      ∃ n1 n2, n = n1 ++ (k, nv) :: n2 ∧ ∀ p ∈ n1, p.1 ≠ k
  | [], h => by simp [lookupK] at h
  | (k2, v2) :: rest, h => by
    by_cases he : k = k2
    · subst he
      rw [lookupK, if_pos rfl] at h
      injection h with h
      subst h
      exact ⟨[], rest, rfl, by simp⟩
    · rw [lookupK, if_neg he] at h
      obtain ⟨n1, n2, rfl, hn1⟩ := lookupK_split h
      refine ⟨(k2, v2) :: n1, n2, rfl, ?_⟩
      intro p hp
      rcases List.mem_cons.1 hp with rfl | hp2
      · exact fun hc => he hc.symm
      · exact hn1 p hp2

theorem nodupKeysB_split {β : Type} {p : Str × β} :
    ∀ {l1 l2 : List (Str × β)}, nodupKeysB (l1 ++ p :: l2) = true →
      ∀ q ∈ l2, q.1 ≠ p.1
  | [], l2, h, q, hq => by
    obtain ⟨k, v⟩ := p
    simp only [List.nil_append, nodupKeysB, Bool.and_eq_true, Bool.not_eq_true',
      List.any_eq_false] at h
    have := h.1 q hq
    simpa using this
  | a :: l1, l2, h, q, hq => by
    obtain ⟨k2, v2⟩ := a
    simp only [List.cons_append, nodupKeysB, Bool.and_eq_true] at h
    exact nodupKeysB_split h.2 q hq

theorem nodupKeysB_append_singleton {β : Type} {k : Str} (v : β) :
    ∀ {l : List (Str × β)}, nodupKeysB l = true → (∀ p ∈ l, p.1 ≠ k) →
      nodupKeysB (l ++ [(k, v)]) = true
  | [], _, _ => by simp [nodupKeysB]
  | (k2, v2) :: rest, h, hk => by
    simp only [nodupKeysB, Bool.and_eq_true, Bool.not_eq_true', List.any_eq_false] at h
    simp only [List.cons_append, nodupKeysB, Bool.and_eq_true, Bool.not_eq_true',
      List.any_eq_false]
    refine ⟨?_, nodupKeysB_append_singleton v h.2 (fun p hp => hk p (List.mem_cons_of_mem _ hp))⟩
    intro p hp
    rcases List.mem_append.1 hp with hp | hp
    · exact h.1 p hp
    · simp only [List.mem_singleton] at hp
      subst hp
      simpa using (fun hc => hk (k2, v2) (List.mem_cons_self _ _) hc.symm : ¬ k = k2)

theorem mergeKey_nodup {e : List (Str × Value)} {k : Str} {nv : Value}
    (h : nodupKeysB e = true) : nodupKeysB (mergeKey e k nv) = true := by
  rw [mergeKey]
  rcases hl : lookupK k e with _ | ov
  · exact nodupKeysB_append_singleton nv h (lookupK_eq_none_iff.1 hl)
  · have hkeys : ∀ w : Value, nodupKeysB (setK k w e) = true := fun w => by
      rw [nodupKeysB_congr_keys (setK_keys_of_lookup w (by rw [hl]; exact fun hc => Option.noConfusion hc))]
      exact h
    cases ov <;> cases nv <;> first | exact h | exact hkeys _

theorem mergeInto_nodup :
    ∀ {n e : List (Str × Value)}, nodupKeysB e = true → nodupKeysB (mergeInto e n) = true
  | [], _, h => h
  | (k, nv) :: rest, e, h => by
    rw [mergeInto]
    exact mergeInto_nodup (mergeKey_nodup h)

/-- Claim C3: for every key present in both mappings given to
`merge_yaml`, a scalar existing value (neither mapping nor list) is
overwritten by the incoming value unconditionally, while an existing
mapping or list paired with an incoming value of incompatible shape is
kept unchanged; no error is raised (the merge is a total function, so
the mismatch is absorbed silently). -/
theorem merge_yaml_key_policy (e n : List (Str × Value)) (k : Str) (ov nv : Value)
    (hne : nodupKeysB e = true) (hnn : nodupKeysB n = true)
    (he : lookupK k e = some ov) (hn : lookupK k n = some nv) :
    (isMapB ov = false → isListB ov = false →
      lookupK k (merge_yaml e n) = some nv) ∧
    (isMapB ov = true → isMapB nv = false →
      lookupK k (merge_yaml e n) = some ov) ∧
    (isListB ov = true → isListB nv = false →
      lookupK k (merge_yaml e n) = some ov) := by
  obtain ⟨n1, n2, rfl, hn1⟩ := lookupK_split hn
  have hn2 : ∀ q ∈ n2, q.1 ≠ k := fun q hq => nodupKeysB_split hnn q hq
  have he1 : lookupK k (mergeInto e n1) = some ov := by
    rw [mergeInto_lookup_notin hn1, he]
  have hsort : lookupK k (merge_yaml e (n1 ++ (k, nv) :: n2)) =
      lookupK k (mergeKey (mergeInto e n1) k nv) := by
    rw [merge_yaml, lookupK_sortPairs (mergeInto_nodup hne) k, mergeInto_append, mergeInto]
    exact mergeInto_lookup_notin hn2
  rw [hsort, mergeKey, he1]
  refine ⟨?_, ?_, ?_⟩
  · intro hm hl
    cases ov with
    | vmap o => simp [isMapB] at hm
    | vlist o => simp [isListB] at hl
    | vstr s => exact lookupK_setK_self k nv _
    | vint m => exact lookupK_setK_self k nv _
    | vbool b => exact lookupK_setK_self k nv _
    | vnull => exact lookupK_setK_self k nv _
  · intro hm hm2
    cases ov <;> try (simp [isMapB] at hm)
    cases nv <;>
      first
        | exact he1
        | (simp [isMapB] at hm2)
  · intro hl hl2
    cases ov <;> try (simp [isListB] at hl)
    cases nv <;>
      first
        | exact he1
        | (simp [isListB] at hl2)

/-- Witness for C3 at a concrete input: existing
`{"l": [], "m": {}, "x": 1}` merged with incoming
`{"l": null, "m": "s", "x": 2}`: the scalar at `"x"` is overwritten, the
mapping at `"m"` and the list at `"l"` survive their shape mismatches. -/
theorem merge_yaml_key_policy_witness :
    lookupK ['x']
      (merge_yaml [(['l'], .vlist []), (['m'], .vmap []), (['x'], .vint 1)]
        [(['l'], .vnull), (['m'], .vstr ['s']), (['x'], .vint 2)]) = some (.vint 2) ∧
    lookupK ['m']
      (merge_yaml [(['l'], .vlist []), (['m'], .vmap []), (['x'], .vint 1)]
        [(['l'], .vnull), (['m'], .vstr ['s']), (['x'], .vint 2)]) = some (.vmap []) ∧
    lookupK ['l']
      (merge_yaml [(['l'], .vlist []), (['m'], .vmap []), (['x'], .vint 1)]
        [(['l'], .vnull), (['m'], .vstr ['s']), (['x'], .vint 2)]) = some (.vlist []) := by
  refine ⟨?_, ?_, ?_⟩
  · exact (merge_yaml_key_policy
      [(['l'], .vlist []), (['m'], .vmap []), (['x'], .vint 1)]
      [(['l'], .vnull), (['m'], .vstr ['s']), (['x'], .vint 2)]
      ['x'] (.vint 1) (.vint 2) rfl rfl rfl rfl).1 rfl rfl
  · exact (merge_yaml_key_policy
      [(['l'], .vlist []), (['m'], .vmap []), (['x'], .vint 1)]
      [(['l'], .vnull), (['m'], .vstr ['s']), (['x'], .vint 2)]
      ['m'] (.vmap []) (.vstr ['s']) rfl rfl rfl rfl).2.1 rfl rfl
  · exact (merge_yaml_key_policy
      [(['l'], .vlist []), (['m'], .vmap []), (['x'], .vint 1)]
      [(['l'], .vnull), (['m'], .vstr ['s']), (['x'], .vint 2)]
      ['l'] (.vlist []) .vnull rfl rfl rfl rfl).2.2 rfl rfl

/-- Claim C5 (amended): the mapping produced by a `merge_yaml` call has
its keys sorted case-insensitively at its own level — and therefore at
every level at which the merge recursed, those sub-mappings being
`merge_yaml` results themselves; subtrees inserted wholesale for keys
absent from `existing` are, however, copied verbatim and not re-sorted. -/
theorem merge_yaml_level_sorted (e n : List (Str × Value)) :
    (merge_yaml e n).Pairwise
      (fun p q => strLeb (strLower p.1) (strLower q.1) = true) := by
  rw [merge_yaml]
  exact sortByKey_sorted _ _

/-- Claim C5 counterexample: merging `{}` with `{"a": {"b": 1, "A": 2}}`
inserts the incoming subtree verbatim; the inner mapping keeps its
unsorted key order `b, A` (case-insensitive sorting would give `A, b`),
so not every mapping reachable in a `merge_yaml` result is sorted. -/
theorem merge_yaml_nested_unsorted :
    lookupK ['a']
        (merge_yaml [] [(['a'], .vmap [(['b'], .vint 1), (['A'], .vint 2)])]) =
      some (.vmap [(['b'], .vint 1), (['A'], .vint 2)]) ∧
    ¬ ([((['b'] : Str), Value.vint 1), (['A'], Value.vint 2)].Pairwise
        (fun p q => strLeb (strLower p.1) (strLower q.1) = true)) := by
  refine ⟨rfl, ?_⟩
  intro hc
  rcases List.pairwise_cons.1 hc with ⟨h1, _⟩
  have := h1 (['A'], Value.vint 2) (List.mem_cons_self _ _)
  exact Bool.noConfusion this

/-- Claim C9 (amended): when the two lists are not uniformly strings the
fallback branch of `merge_lists` runs, and its best-effort sort never
actually fails: the sort key `str(x).lower()` is a string for every
value, and strings are always mutually comparable, so the result is the
`==`-deduplicated concatenation sorted by lowercased rendering — append
order survives only when it already coincides with that order. -/
theorem merge_lists_fallback_always_sorted (old_list new_list : List Value)
    (h : (old_list ++ new_list).all isStr = false) :
    merge_lists old_list new_list =
      sortByKey renderKey (fallbackDedup old_list new_list) ∧
    (merge_lists old_list new_list).Pairwise
      (fun a b => strLeb (renderKey a) (renderKey b) = true) := by
  have hm : merge_lists old_list new_list =
      sortByKey renderKey (fallbackDedup old_list new_list) := by
    rw [merge_lists, h]
    rfl
  refine ⟨hm, ?_⟩
  rw [hm]
  exact sortByKey_sorted _ _

/-- Witness for C9 (amended) at a concrete heterogeneous input. -/
theorem merge_lists_fallback_always_sorted_witness :
    ([Value.vint 2, Value.vstr ['b']] ++ [Value.vstr ['a']]).all isStr = false ∧
    merge_lists [.vint 2, .vstr ['b']] [.vstr ['a']] =
      sortByKey renderKey (fallbackDedup [.vint 2, .vstr ['b']] [.vstr ['a']]) :=
  ⟨rfl, (merge_lists_fallback_always_sorted [.vint 2, .vstr ['b']] [.vstr ['a']] rfl).1⟩

/-- Claim C9 counterexample: on the heterogeneous input
`merge_lists([2, "b"], ["a"])` the sort succeeds and returns
`[2, "a", "b"]` (sorted by lowercased rendering, `str(2) = "2"` sorting
before the letters) — not the append order `[2, "b", "a"]` the claim
says such inputs fall back to. -/
theorem merge_lists_fallback_counterexample :
    merge_lists [.vint 2, .vstr ['b']] [.vstr ['a']] =
      [.vint 2, .vstr ['a'], .vstr ['b']] ∧
    merge_lists [.vint 2, .vstr ['b']] [.vstr ['a']] ≠
      [.vint 2, .vstr ['b'], .vstr ['a']] :=
  ⟨rfl, ne_of_beqL_false rfl⟩

/-- Claim C4 counterexample: within the existing list later occurrences
overwrite earlier ones in the casing index, so
`merge_lists(["Foo", "foo"], [])` returns `["foo"]` — the first-seen
casing `"Foo"` does not win. -/
theorem merge_lists_casing_counterexample :
    merge_lists [.vstr ['F', 'o', 'o'], .vstr ['f', 'o', 'o']] [] =
      [.vstr ['f', 'o', 'o']] ∧
    merge_lists [.vstr ['F', 'o', 'o'], .vstr ['f', 'o', 'o']] [] ≠
      [.vstr ['F', 'o', 'o']] :=
  ⟨rfl, ne_of_beqL_false rfl⟩

/-! ## Characterization of the string-branch casing index -/

theorem lookupK_stringIndexOld_aux (k : Str) :
    ∀ (l : List Value) (m : List (Str × Value)),
      lookupK k (l.foldl (fun m x => setK (strLower (getStr x)) x m) m) =
        match lastWith (fun x => strLower (getStr x) == k) l with
        | some y => some y
        | none => lookupK k m
  | [], m => rfl
  | x :: l, m => by
    rw [List.foldl_cons, lookupK_stringIndexOld_aux k l (setK (strLower (getStr x)) x m),
      lastWith]
    cases lastWith (fun x => strLower (getStr x) == k) l with
    | some y => rfl
    | none =>
      by_cases hp : strLower (getStr x) = k
      · subst hp
        simp [lookupK_setK_self]
      · have hb : (strLower (getStr x) == k) = false := beq_eq_false_iff_ne.2 hp
        simp [hb, lookupK_setK_ne (fun hc => hp hc.symm)]

theorem lookupK_stringIndexOld (k : Str) (old_list : List Value) :
    lookupK k (stringIndexOld old_list) =
      lastWith (fun x => strLower (getStr x) == k) old_list := by
  rw [stringIndexOld, lookupK_stringIndexOld_aux]
  cases lastWith (fun x => strLower (getStr x) == k) old_list <;> rfl

theorem lookupK_stringIndex_aux (k : Str) :
    ∀ (l : List Value) (m : List (Str × Value)),
      lookupK k
        (l.foldl
          (fun m x =>
            if (lookupK (strLower (getStr x)) m).isSome then m
            else m ++ [(strLower (getStr x), x)]) m) =
        match lookupK k m with
        | some v => some v
        | none => l.find? (fun x => strLower (getStr x) == k)
  | [], m => by cases h : lookupK k m <;> simp [h]
  | x :: l, m => by
    rw [List.foldl_cons]
    by_cases hg : (lookupK (strLower (getStr x)) m).isSome = true
    · rw [if_pos hg, lookupK_stringIndex_aux k l m]
      by_cases hp : strLower (getStr x) = k
      · subst hp
        rcases Option.isSome_iff_exists.1 hg with ⟨v, hv⟩
        rw [hv]
      · have hb : (strLower (getStr x) == k) = false := beq_eq_false_iff_ne.2 hp
        rw [List.find?]
        rw [hb]
    · rw [if_neg hg, lookupK_stringIndex_aux k l (m ++ [(strLower (getStr x), x)])]
      have hnone : lookupK (strLower (getStr x)) m = none :=
        Option.not_isSome_iff_eq_none.1 (by simpa using hg)
      rw [lookupK_append]
      by_cases hp : strLower (getStr x) = k
      · subst hp
        rw [hnone]
        rw [List.find?]
        simp [lookupK]
      · have hb : (strLower (getStr x) == k) = false := beq_eq_false_iff_ne.2 hp
        have hk2 : ¬ k = strLower (getStr x) := fun hc => hp hc.symm
        have hsing : lookupK k [(strLower (getStr x), x)] = none := by
          simp [lookupK, hk2]
        rw [List.find?, hb, hsing]
        try (cases hm : lookupK k m <;> rfl)

theorem lookupK_stringIndex (old_list new_list : List Value) (k : Str) :
    lookupK k (stringIndex old_list new_list) = casingFor old_list new_list k := by
  rw [stringIndex, lookupK_stringIndex_aux, lookupK_stringIndexOld, casingFor]

theorem setK_of_lookup_none {β : Type} {k : Str} (v : β) :
    ∀ {m : List (Str × β)}, lookupK k m = none → setK k v m = m ++ [(k, v)]
  | [], _ => rfl
  | (k2, v2) :: rest, h => by
    by_cases he : k = k2
    · subst he
      rw [lookupK, if_pos rfl] at h
      exact Option.noConfusion h
    · rw [lookupK, if_neg he] at h
      rw [setK, if_neg he, setK_of_lookup_none v h, List.cons_append]

theorem nodupKeysB_setK {β : Type} {m : List (Str × β)} (h : nodupKeysB m = true)
    (k : Str) (v : β) : nodupKeysB (setK k v m) = true := by
  cases hl : lookupK k m with
  | none =>
    rw [setK_of_lookup_none v hl]
    exact nodupKeysB_append_singleton v h (lookupK_eq_none_iff.1 hl)
  | some w =>
    rw [nodupKeysB_congr_keys
      (setK_keys_of_lookup v (by rw [hl]; exact fun hc => Option.noConfusion hc))]
    exact h

theorem setK_mem_sub {β : Type} {k : Str} {v : β} {p : Str × β} :
    ∀ {m : List (Str × β)}, p ∈ setK k v m → p = (k, v) ∨ p ∈ m
  | [], hp => by
    rw [setK] at hp
    simp only [List.mem_singleton] at hp
    exact Or.inl hp
  | (k2, v2) :: rest, hp => by
    rw [setK] at hp
    by_cases he : k = k2
    · rw [if_pos he] at hp
      rcases List.mem_cons.1 hp with rfl | hp
      · exact Or.inl rfl
      · exact Or.inr (List.mem_cons_of_mem _ hp)
    · rw [if_neg he] at hp
      rcases List.mem_cons.1 hp with rfl | hp
      · exact Or.inr (List.mem_cons_self _ _)
      · rcases setK_mem_sub hp with h | h
        · exact Or.inl h
        · exact Or.inr (List.mem_cons_of_mem _ h)

theorem stringIndexOld_nodup_wf (old_list : List Value) :
    nodupKeysB (stringIndexOld old_list) = true ∧
      ∀ p ∈ stringIndexOld old_list, p.1 = strLower (getStr p.2) := by
  rw [stringIndexOld]
  suffices h : ∀ (l : List Value) (m : List (Str × Value)), nodupKeysB m = true →
      (∀ p ∈ m, p.1 = strLower (getStr p.2)) →
      nodupKeysB (l.foldl (fun m x => setK (strLower (getStr x)) x m) m) = true ∧
      ∀ p ∈ l.foldl (fun m x => setK (strLower (getStr x)) x m) m,
        p.1 = strLower (getStr p.2) by
    exact h old_list [] rfl (by simp)
  intro l
  induction l with
  | nil => exact fun m hm hwf => ⟨hm, hwf⟩
  | cons x l ih =>
    intro m hm hwf
    rw [List.foldl_cons]
    refine ih _ (nodupKeysB_setK hm _ _) ?_
    intro p hp
    rcases setK_mem_sub hp with rfl | hp
    · rfl
    · exact hwf p hp

theorem stringIndex_nodup_wf (old_list new_list : List Value) :
    nodupKeysB (stringIndex old_list new_list) = true ∧
      ∀ p ∈ stringIndex old_list new_list, p.1 = strLower (getStr p.2) := by
  rw [stringIndex]
  suffices h : ∀ (l : List Value) (m : List (Str × Value)), nodupKeysB m = true →
      (∀ p ∈ m, p.1 = strLower (getStr p.2)) →
      nodupKeysB
        (l.foldl
          (fun m x =>
            if (lookupK (strLower (getStr x)) m).isSome then m
            else m ++ [(strLower (getStr x), x)]) m) = true ∧
      ∀ p ∈ l.foldl
          (fun m x =>
            if (lookupK (strLower (getStr x)) m).isSome then m
            else m ++ [(strLower (getStr x), x)]) m,
        p.1 = strLower (getStr p.2) by
    obtain ⟨h1, h2⟩ := stringIndexOld_nodup_wf old_list
    exact h new_list _ h1 h2
  intro l
  induction l with
  | nil => exact fun m hm hwf => ⟨hm, hwf⟩
  | cons x l ih =>
    intro m hm hwf
    rw [List.foldl_cons]
    by_cases hg : (lookupK (strLower (getStr x)) m).isSome = true
    · rw [if_pos hg]
      exact ih m hm hwf
    · rw [if_neg hg]
      have hnone : lookupK (strLower (getStr x)) m = none :=
        Option.not_isSome_iff_eq_none.1 (by simpa using hg)
      refine ih _ (nodupKeysB_append_singleton _ hm (lookupK_eq_none_iff.1 hnone)) ?_
      intro p hp
      rcases List.mem_append.1 hp with hp | hp
      · exact hwf p hp
      · simp only [List.mem_singleton] at hp
        subst hp
        rfl

theorem mem_values_iff_lookup {m : List (Str × Value)} (hn : nodupKeysB m = true)
    (hwf : ∀ p ∈ m, p.1 = strLower (getStr p.2)) (v : Value) :
    v ∈ m.map Prod.snd ↔ lookupK (strLower (getStr v)) m = some v := by
  constructor
  · intro hv
    obtain ⟨p, hp, rfl⟩ := List.mem_map.1 hv
    have hk := hwf p hp
    have : (strLower (getStr p.2), p.2) ∈ m := by
      have : p = (strLower (getStr p.2), p.2) := by
        obtain ⟨a, b⟩ := p
        simp only at hk
        rw [hk]
      rw [← this]
      exact hp
    exact lookupK_eq_some_of_mem (nodupKeysB_iff.1 hn) this
  · intro h
    exact List.mem_map.2 ⟨(strLower (getStr v), v), mem_of_lookupK_eq_some h, rfl⟩

/-- Claim C4 (amended): for all-string inputs, `merge_lists` returns
exactly the distinct values under lowercase equality, sorted by their
lowercase form; but the casing kept for a lowercase key is the *last*
occurrence in the existing list when the key occurs there (later
occurrences overwrite earlier ones in the index), and only between the
two lists — and within the incoming list — does the first-seen casing
win.  The cited example still holds:
`merge_lists(["Foo"], ["foo", "Bar"]) = ["Bar", "Foo"]`. -/
theorem merge_lists_string_characterization (old_list new_list : List Value)
    (hs : (old_list ++ new_list).all isStr = true) :
    (∀ v, v ∈ merge_lists old_list new_list ↔
      casingFor old_list new_list (strLower (getStr v)) = some v) ∧
    ((merge_lists old_list new_list).map (fun v => strLower (getStr v))).Nodup ∧
    (merge_lists old_list new_list).Pairwise
      (fun a b => strLeb (strLower (getStr a)) (strLower (getStr b)) = true) ∧
    merge_lists [.vstr ['F', 'o', 'o']] [.vstr ['f', 'o', 'o'], .vstr ['B', 'a', 'r']] =
      [.vstr ['B', 'a', 'r'], .vstr ['F', 'o', 'o']] := by
  obtain ⟨hn, hwf⟩ := stringIndex_nodup_wf old_list new_list
  have hml : merge_lists old_list new_list =
      sortByKey (fun v => strLower (getStr v)) ((stringIndex old_list new_list).map Prod.snd) := by
    rw [merge_lists, hs]
    rfl
  refine ⟨?_, ?_, ?_, rfl⟩
  · intro v
    rw [hml, sortByKey_mem, mem_values_iff_lookup hn hwf, lookupK_stringIndex]
  · rw [hml]
    have hperm :
        List.Perm
          ((sortByKey (fun v => strLower (getStr v))
            ((stringIndex old_list new_list).map Prod.snd)).map (fun v => strLower (getStr v)))
          (((stringIndex old_list new_list).map Prod.snd).map (fun v => strLower (getStr v))) :=
      (sortByKey_perm _ _).map _
    rw [hperm.nodup_iff]
    rw [List.map_map]
    have hkeys : (stringIndex old_list new_list).map ((fun v => strLower (getStr v)) ∘ Prod.snd) =
        (stringIndex old_list new_list).map Prod.fst := by
      apply List.map_congr_left
      intro p hp
      exact (hwf p hp).symm
    rw [hkeys]
    exact nodupKeysB_iff.1 hn
  · rw [hml]
    exact sortByKey_sorted _ _

/-- Witness for C4 (amended) at the spec's own example input. -/
theorem merge_lists_string_characterization_witness :
    (([Value.vstr ['F', 'o', 'o']] ++
        [Value.vstr ['f', 'o', 'o'], Value.vstr ['B', 'a', 'r']]).all isStr = true) ∧
    merge_lists [.vstr ['F', 'o', 'o']] [.vstr ['f', 'o', 'o'], .vstr ['B', 'a', 'r']] =
      [.vstr ['B', 'a', 'r'], .vstr ['F', 'o', 'o']] :=
  ⟨rfl,
    (merge_lists_string_characterization [.vstr ['F', 'o', 'o']]
      [.vstr ['f', 'o', 'o'], .vstr ['B', 'a', 'r']] rfl).2.2.2⟩

/-! ## Canonicalization: idempotence and scalar preservation -/

theorem sortDictList_eq_map : ∀ xs : List Value, sortDictList xs = xs.map sort_dict
  | [] => rfl
  | x :: xs => by rw [sortDictList, sortDictList_eq_map xs, List.map_cons]

theorem sortDictPairs_eq_map : ∀ l : List (Str × Value), sortDictPairs l = mapVals sort_dict l
  | [] => rfl
  | (k, v) :: rest => by
    rw [sortDictPairs, sortDictPairs_eq_map rest]
    rfl

theorem mapVals_id {f : Value → Value} :
    ∀ {l : List (Str × Value)}, (∀ p ∈ l, f p.2 = p.2) → mapVals f l = l := by
  intro l h
  rw [mapVals]
  have : ∀ p ∈ l, (fun p : Str × Value => (p.1, f p.2)) p = id p := by
    intro p hp
    obtain ⟨a, b⟩ := p
    simp only [id]
    rw [h (a, b) hp]
  rw [List.map_congr_left this, List.map_id]

theorem sortPairs_mapVals (f : Value → Value) (l : List (Str × Value)) :
    sortPairs (mapVals f l) = mapVals f (sortPairs l) := by
  rw [sortPairs, sortPairs, mapVals, mapVals]
  exact (sortByKey_map (fun p : Str × Value => (p.1, f p.2))
    (fun p => strLower p.1) (fun p => strLower p.1) l (fun a _ => rfl)).symm

/-- Recovering the source's evaluation order for `sort_dict` on mappings:
sorting the keys first and then canonicalizing each value gives the same
result as the definition used here. -/
theorem sort_dict_source_order (kvs : List (Str × Value)) :
    sort_dict (.vmap kvs) = .vmap (sortDictPairs (sortPairs kvs)) := by
  rw [sort_dict, sortDictPairs_eq_map, sortDictPairs_eq_map, sortPairs_mapVals]

theorem sort_dict_scalar_fix :
    ∀ {v : Value}, isMapB v = false → isListB v = false → sort_dict v = v
  | .vstr _, _, _ => rfl
  | .vint _, _, _ => rfl
  | .vbool _, _, _ => rfl
  | .vnull, _, _ => rfl
  | .vlist _, _, hl => by simp [isListB] at hl
  | .vmap _, hm, _ => by simp [isMapB] at hm

/-- Claim C6: canonicalization is idempotent, and it preserves the set of
scalar leaves reachable from the tree (indeed their multiset: the leaves
of `sort_dict T` are a permutation of those of `T`). -/
theorem sort_dict_idem_and_scalars :
    ∀ T : Value, sort_dict (sort_dict T) = sort_dict T ∧
      (∀ s, s ∈ scalarsV (sort_dict T) ↔ s ∈ scalarsV T) := by
  have scalarsL_eq : ∀ xs : List Value, scalarsL xs = xs.flatMap scalarsV := by
    intro xs
    induction xs with
    | nil => rfl
    | cons x xs ih => rw [scalarsL, ih, List.flatMap_cons]
  have scalarsP_eq : ∀ l : List (Str × Value),
      scalarsP l = l.flatMap (fun p => scalarsV p.2) := by
    intro l
    induction l with
    | nil => rfl
    | cons p rest ih =>
      obtain ⟨k, v⟩ := p
      rw [scalarsP, ih, List.flatMap_cons]
  have main : ∀ T : Value, sort_dict (sort_dict T) = sort_dict T ∧
      List.Perm (scalarsV (sort_dict T)) (scalarsV T) := by
    intro T
    induction T using valueInd with
    | h1 s => exact ⟨rfl, List.Perm.refl _⟩
    | h2 n => exact ⟨rfl, List.Perm.refl _⟩
    | h3 b => exact ⟨rfl, List.Perm.refl _⟩
    | h4 => exact ⟨rfl, List.Perm.refl _⟩
    | h5 xs ih =>
      constructor
      · rw [sort_dict, sort_dict]
        have hfix : ∀ y ∈ sortByKey renderKey (sortDictList xs), sort_dict y = y := by
          intro y hy
          rw [sortByKey_mem, sortDictList_eq_map] at hy
          obtain ⟨x, hx, rfl⟩ := List.mem_map.1 hy
          exact (ih x hx).1
        have hfix2 : ∀ y ∈ sortByKey renderKey (sortDictList xs), sort_dict y = id y := hfix
        rw [sortDictList_eq_map, List.map_congr_left hfix2, List.map_id,
          sortByKey_eq_of_sorted (sortByKey_sorted _ _)]
      · rw [sort_dict, scalarsV, scalarsV, scalarsL_eq, scalarsL_eq]
        refine (List.Perm.flatMap_right scalarsV
          (sortByKey_perm renderKey (sortDictList xs))).trans ?_
        rw [sortDictList_eq_map, List.flatMap_map]
        clear scalarsL_eq scalarsP_eq
        induction xs with
        | nil => exact List.Perm.refl _
        | cons x xs ihx =>
          rw [List.flatMap_cons, List.flatMap_cons]
          exact List.Perm.append ((ih x (List.mem_cons_self _ _)).2)
            (ihx (fun y hy => ih y (List.mem_cons_of_mem _ hy)))
    | h6 kvs ih =>
      constructor
      · rw [sort_dict, sort_dict]
        have hfix : ∀ p ∈ sortPairs (sortDictPairs kvs), sort_dict p.2 = p.2 := by
          intro p hp
          have : p ∈ sortDictPairs kvs := (sortByKey_perm _ _).mem_iff.1 hp
          rw [sortDictPairs_eq_map, mapVals] at this
          obtain ⟨q, hq, rfl⟩ := List.mem_map.1 this
          exact (ih q hq).1
        rw [sortDictPairs_eq_map (sortPairs (sortDictPairs kvs)), mapVals_id hfix]
        exact congrArg Value.vmap
          (sortByKey_eq_of_sorted
            (sortByKey_sorted (fun p => strLower p.1) (sortDictPairs kvs)))
      · rw [sort_dict, scalarsV, scalarsV, scalarsP_eq, scalarsP_eq]
        refine (List.Perm.flatMap_right (fun p : Str × Value => scalarsV p.2)
          (sortByKey_perm (fun p : Str × Value => strLower p.1) (sortDictPairs kvs))).trans ?_
        rw [sortDictPairs_eq_map, mapVals, List.flatMap_map]
        clear scalarsL_eq scalarsP_eq
        induction kvs with
        | nil => exact List.Perm.refl _
        | cons p rest ihp =>
          rw [List.flatMap_cons, List.flatMap_cons]
          exact List.Perm.append ((ih p (List.mem_cons_self _ _)).2)
            (ihp (fun q hq => ih q (List.mem_cons_of_mem _ hq)))
  intro T
  exact ⟨(main T).1, fun s => (main T).2.mem_iff⟩

/-! ## Merging a mapping with itself -/

theorem nodupKeysB_before {β : Type} {q : Str × β} :
    ∀ {l1 l2 : List (Str × β)}, nodupKeysB (l1 ++ q :: l2) = true →
      ∀ p ∈ l1, p.1 ≠ q.1
  | [], _, _, p, hp => by simp at hp
  | (k2, v2) :: l1, l2, h, p, hp => by
    simp only [List.cons_append, nodupKeysB, Bool.and_eq_true, Bool.not_eq_true',
      List.any_eq_false] at h
    rcases List.mem_cons.1 hp with rfl | hp2
    · have := h.1 q (by simp)
      simpa using fun hc => (by simpa [hc] using this : False)
    · exact nodupKeysB_before h.2 p hp2

theorem mapVals_append (f : Value → Value) (l1 l2 : List (Str × Value)) :
    mapVals f (l1 ++ l2) = mapVals f l1 ++ mapVals f l2 := by
  rw [mapVals, mapVals, mapVals, List.map_append]

theorem setK_append_left {β : Type} {k : Str} (v : β) :
    ∀ {l1 : List (Str × β)} (l2 : List (Str × β)), (∀ p ∈ l1, p.1 ≠ k) →
      setK k v (l1 ++ l2) = l1 ++ setK k v l2
  | [], l2, _ => rfl
  | (k2, v2) :: l1, l2, h => by
    have hne : ¬ k = k2 := fun hc => h (k2, v2) (List.mem_cons_self _ _) hc.symm
    rw [List.cons_append, setK, if_neg hne,
      setK_append_left v l2 (fun p hp => h p (List.mem_cons_of_mem _ hp)), List.cons_append]

theorem mergeInto_self :
    ∀ (post pre : List (Str × Value)),
      nodupKeysB (pre ++ post) = true →
      mergeInto (mapVals mergeSelf pre ++ post) post = mapVals mergeSelf (pre ++ post)
  | [], pre, _ => by
    rw [mergeInto, List.append_nil, List.append_nil]
  | (k, nv) :: post, pre, h => by
    have hpre : ∀ p ∈ pre, p.1 ≠ k := fun p hp => nodupKeysB_before h p hp
    have hpre2 : ∀ p ∈ mapVals mergeSelf pre, p.1 ≠ k := by
      intro p hp
      rw [mapVals] at hp
      obtain ⟨q, hq, rfl⟩ := List.mem_map.1 hp
      exact hpre q hq
    have hlook : lookupK k (mapVals mergeSelf pre ++ (k, nv) :: post) = some nv := by
      rw [lookupK_append, lookupK_eq_none_iff.2 hpre2, lookupK, if_pos rfl]
    have hset : ∀ w : Value, setK k w (mapVals mergeSelf pre ++ (k, nv) :: post) =
        mapVals mergeSelf pre ++ (k, w) :: post := by
      intro w
      rw [setK_append_left w _ hpre2, setK, if_pos rfl]
    have hstep : mergeKey (mapVals mergeSelf pre ++ (k, nv) :: post) k nv =
        mapVals mergeSelf pre ++ (k, mergeSelf nv) :: post := by
      rw [mergeKey, hlook]
      cases nv with
      | vstr s => exact hset _
      | vint n => exact hset _
      | vbool b => exact hset _
      | vnull => exact hset _
      | vlist o => exact hset _
      | vmap o => exact hset _
    have hnd : nodupKeysB ((pre ++ [(k, nv)]) ++ post) = true := by
      have heq : (pre ++ [(k, nv)]) ++ post = pre ++ (k, nv) :: post := by simp
      rw [heq]
      exact h
    have hIH := mergeInto_self post (pre ++ [(k, nv)]) hnd
    rw [mergeInto, hstep]
    simp only [mapVals, List.map_append, List.map_cons, List.map_nil, List.append_assoc,
      List.singleton_append, List.nil_append, List.cons_append] at hIH ⊢
    exact hIH

theorem isStr_sort_dict_fix : ∀ {x : Value}, isStr x = true → sort_dict x = x
  | .vstr _, _ => rfl
  | .vint _, h => by simp [isStr] at h
  | .vbool _, h => by simp [isStr] at h
  | .vnull, h => by simp [isStr] at h
  | .vlist _, h => by simp [isStr] at h
  | .vmap _, h => by simp [isStr] at h

theorem goodP_mem : ∀ {kvs : List (Str × Value)}, goodP kvs = true →
    ∀ p ∈ kvs, goodV p.2 = true
  | [], _, p, hp => by simp at hp
  | (k, v) :: rest, h, p, hp => by
    rw [goodP, Bool.and_eq_true] at h
    rcases List.mem_cons.1 hp with rfl | hp2
    · exact h.1
    · exact goodP_mem h.2 p hp2

theorem lookupK_isSome_of_mem {β : Type} {k : Str} {v : β} :
    ∀ {m : List (Str × β)}, (k, v) ∈ m → (lookupK k m).isSome = true
  | [], hm => by simp at hm
  | (k2, v2) :: rest, hm => by
    by_cases he : k = k2
    · rw [lookupK, if_pos he]
      rfl
    · rw [lookupK, if_neg he]
      rcases List.mem_cons.1 hm with heq | hm2
      · injection heq with h1 _
        exact absurd h1 he
      · exact lookupK_isSome_of_mem hm2

theorem stringIndexOld_fresh :
    ∀ (l : List Value) (m : List (Str × Value)),
      nodupLowerB l = true →
      (∀ x ∈ l, lookupK (strLower (getStr x)) m = none) →
      l.foldl (fun m x => setK (strLower (getStr x)) x m) m =
        m ++ l.map (fun x => (strLower (getStr x), x))
  | [], m, _, _ => by simp
  | x :: l, m, hnd, hfresh => by
    rw [nodupLowerB, Bool.and_eq_true, Bool.not_eq_true', List.any_eq_false] at hnd
    rw [List.foldl_cons,
      setK_of_lookup_none x (hfresh x (List.mem_cons_self _ _)),
      stringIndexOld_fresh l (m ++ [(strLower (getStr x), x)]) hnd.2 ?_]
    · simp
    · intro y hy
      rw [lookupK_append, hfresh y (List.mem_cons_of_mem _ hy)]
      have hne : ¬ strLower (getStr y) = strLower (getStr x) := by
        have := hnd.1 y hy
        simpa using this
      simp [lookupK, hne]

theorem stringIndex_skip :
    ∀ (l : List Value) (m : List (Str × Value)),
      (∀ x ∈ l, (lookupK (strLower (getStr x)) m).isSome = true) →
      l.foldl
        (fun m x =>
          if (lookupK (strLower (getStr x)) m).isSome then m
          else m ++ [(strLower (getStr x), x)]) m = m
  | [], _, _ => rfl
  | x :: l, m, hall => by
    rw [List.foldl_cons, if_pos (hall x (List.mem_cons_self _ _)),
      stringIndex_skip l m (fun y hy => hall y (List.mem_cons_of_mem _ hy))]

theorem merge_lists_self_strings (xs : List Value)
    (hstr : xs.all isStr = true) (hnd : nodupLowerB xs = true) :
    merge_lists xs xs = sortByKey (fun v => strLower (getStr v)) xs := by
  have hall : (xs ++ xs).all isStr = true := by
    rw [List.all_append, hstr]
    rfl
  rw [merge_lists, hall]
  have hm1 : stringIndexOld xs = xs.map (fun x => (strLower (getStr x), x)) := by
    rw [stringIndexOld, stringIndexOld_fresh xs [] hnd (fun x _ => rfl)]
    rfl
  have hm2 : stringIndex xs xs = xs.map (fun x => (strLower (getStr x), x)) := by
    rw [stringIndex, hm1, stringIndex_skip]
    intro x hx
    exact lookupK_isSome_of_mem (List.mem_map.2 ⟨x, hx, rfl⟩)
  rw [if_pos rfl, hm2, List.map_map]
  have : (fun p : Str × Value => p.2) ∘ (fun x => (strLower (getStr x), x)) = id := rfl
  rw [this, List.map_id]

theorem mergeSelf_eq_sort_dict : ∀ v : Value, goodV v = true → mergeSelf v = sort_dict v := by
  intro v
  induction v using valueInd with
  | h1 s => exact fun _ => rfl
  | h2 n => exact fun _ => rfl
  | h3 b => exact fun _ => rfl
  | h4 => exact fun _ => rfl
  | h5 xs ih =>
    intro hg
    rw [goodV, Bool.and_eq_true] at hg
    rw [mergeSelf, merge_lists_self_strings xs hg.1 hg.2, sort_dict]
    have hfix : sortDictList xs = xs := by
      rw [sortDictList_eq_map]
      have : ∀ x ∈ xs, sort_dict x = id x := by
        intro x hx
        exact isStr_sort_dict_fix (by
          have := List.all_eq_true.1 hg.1 x hx
          exact this)
      rw [List.map_congr_left this, List.map_id]
    rw [hfix]
    have hkeys : ∀ x ∈ xs, strLower (getStr x) = renderKey x := by
      intro x hx
      have hs := List.all_eq_true.1 hg.1 x hx
      cases x with
      | vstr s => rfl
      | vint n => simp [isStr] at hs
      | vbool b => simp [isStr] at hs
      | vnull => simp [isStr] at hs
      | vlist l => simp [isStr] at hs
      | vmap l => simp [isStr] at hs
    rw [sortByKey_congr hkeys]
  | h6 kvs ih =>
    intro hg
    rw [goodV, Bool.and_eq_true] at hg
    have hself : mergeInto kvs kvs = mapVals mergeSelf kvs := by
      have hx := mergeInto_self kvs [] (by simpa using hg.1)
      simpa [mapVals] using hx
    have hvals : mapVals mergeSelf kvs = mapVals sort_dict kvs := by
      rw [mapVals, mapVals]
      apply List.map_congr_left
      intro p hp
      rw [ih p hp (goodP_mem hg.2 p hp)]
    rw [mergeSelf, merge_yaml, hself, sort_dict, sortDictPairs_eq_map, ← hvals]

/-- Claim C1 (amended): for mappings `X` whose every mapping level has
duplicate-free keys (true of all parsed YAML) and whose every list
consists of strings with pairwise distinct lowercasings,
`merge_yaml(X, X) = sort_dict(X)`.  In general the two sides differ:
`merge_lists` deduplicates list elements while `sort_dict` does not, and
the fallback list branch never canonicalizes inside list elements while
`sort_dict` recurses into them (see `merge_yaml_self_counterexample`). -/
theorem merge_yaml_self_canonicalize (kvs : List (Str × Value))
    (h : goodV (.vmap kvs) = true) :
    Value.vmap (merge_yaml kvs kvs) = sort_dict (.vmap kvs) :=
  mergeSelf_eq_sort_dict (.vmap kvs) h

/-- Witness for C1 (amended) at the concrete tree
`{"b": 1, "A": ["x", "Y"]}`. -/
theorem merge_yaml_self_canonicalize_witness :
    goodV (.vmap [(['b'], .vint 1), (['A'], .vlist [.vstr ['x'], .vstr ['Y']])]) = true ∧
    Value.vmap (merge_yaml [(['b'], .vint 1), (['A'], .vlist [.vstr ['x'], .vstr ['Y']])]
        [(['b'], .vint 1), (['A'], .vlist [.vstr ['x'], .vstr ['Y']])]) =
      sort_dict (.vmap [(['b'], .vint 1), (['A'], .vlist [.vstr ['x'], .vstr ['Y']])]) :=
  ⟨rfl,
    merge_yaml_self_canonicalize
      [(['b'], .vint 1), (['A'], .vlist [.vstr ['x'], .vstr ['Y']])] rfl⟩

/-- Claim C1 counterexample: for `X = {"k": ["a", "a"]}`, merging `X`
with itself deduplicates the list (`{"k": ["a"]}`) while `sort_dict X`
keeps both copies, so `merge_yaml(X, X) ≠ sort_dict(X)`. -/
theorem merge_yaml_self_counterexample :
    Value.vmap (merge_yaml [(['k'], .vlist [.vstr ['a'], .vstr ['a']])]
        [(['k'], .vlist [.vstr ['a'], .vstr ['a']])]) =
      .vmap [(['k'], .vlist [.vstr ['a']])] ∧
    sort_dict (.vmap [(['k'], .vlist [.vstr ['a'], .vstr ['a']])]) =
      .vmap [(['k'], .vlist [.vstr ['a'], .vstr ['a']])] ∧
    Value.vmap (merge_yaml [(['k'], .vlist [.vstr ['a'], .vstr ['a']])]
        [(['k'], .vlist [.vstr ['a'], .vstr ['a']])]) ≠
      sort_dict (.vmap [(['k'], .vlist [.vstr ['a'], .vstr ['a']])]) :=
  ⟨rfl, rfl, ne_of_beqV_false rfl⟩

/-! ## The line-list extraction path -/

/-- Claim C2 counterexample: the line-list path deduplicates with a
case-sensitive set union and sorts by code point, so an existing file
`alpha\nbeta` merged with extracted entries `{Beta, gamma}` produces the
four lines `Beta, alpha, beta, gamma` — not the claimed three lines with
`"beta"` retained over `"Beta"`. -/
theorem extract_and_merge_casing_counterexample :
    (extract_and_merge [['B', 'e', 't', 'a'], ['g', 'a', 'm', 'm', 'a']] none
        ⟨some [['a', 'l', 'p', 'h', 'a'], ['b', 'e', 't', 'a']], none, none⟩).textFile =
      some [['B', 'e', 't', 'a'], ['a', 'l', 'p', 'h', 'a'], ['b', 'e', 't', 'a'],
        ['g', 'a', 'm', 'm', 'a']] ∧
    (extract_and_merge [['B', 'e', 't', 'a'], ['g', 'a', 'm', 'm', 'a']] none
        ⟨some [['a', 'l', 'p', 'h', 'a'], ['b', 'e', 't', 'a']], none, none⟩).textFile ≠
      some [['a', 'l', 'p', 'h', 'a'], ['b', 'e', 't', 'a'], ['g', 'a', 'm', 'm', 'a']] :=
  ⟨rfl, by decide⟩

/-- Claim C2 (amended): merging the existing lines `{alpha, beta}` with
the extracted entries `{Beta, gamma}` treats `beta` and `Beta` as
distinct (the union is a case-sensitive set), and the merged file holds
exactly the four lines `Beta, alpha, beta, gamma`, sorted by code point
(capital letters first); the compressed artifact is written as well. -/
theorem extract_and_merge_case_sensitive_union :
    (extract_and_merge [['B', 'e', 't', 'a'], ['g', 'a', 'm', 'm', 'a']] none
        ⟨some [['a', 'l', 'p', 'h', 'a'], ['b', 'e', 't', 'a']], none, none⟩).textFile =
      some [['B', 'e', 't', 'a'], ['a', 'l', 'p', 'h', 'a'], ['b', 'e', 't', 'a'],
        ['g', 'a', 'm', 'm', 'a']] ∧
    (extract_and_merge [['B', 'e', 't', 'a'], ['g', 'a', 'm', 'm', 'a']] none
        ⟨some [['a', 'l', 'p', 'h', 'a'], ['b', 'e', 't', 'a']], none, none⟩).compFile.isSome
      = true :=
  ⟨rfl, rfl⟩

/-- Claim C10: when the union of the existing entries and the newly
extracted entries adds nothing (every new entry is already an existing
line), `extract_and_merge` returns before performing any write: the text
file is not rewritten, the compressed artifact is not created or
updated, and the blobs constant is not patched — the state is returned
exactly as it was, even when compression and publishing were
requested. -/
theorem extract_and_merge_noop (newEntries : List Str) (bc : Option Str) (st : LState)
    (h : ∀ x ∈ newEntries, x ∈ existingEntries st.textFile) :
    extract_and_merge newEntries bc st = st := by
  have hnd : (existingEntries st.textFile).Nodup := by
    cases st.textFile with
    | none => exact List.nodup_nil
    | some lines => exact List.nodup_dedup _
  have hperm : List.Perm ((existingEntries st.textFile ++ newEntries).dedup)
      (existingEntries st.textFile) := by
    refine (List.perm_ext_iff_of_nodup (List.nodup_dedup _) hnd).mpr ?_
    intro a
    rw [List.mem_dedup, List.mem_append]
    constructor
    · rintro (ha | ha)
      · exact ha
      · exact h a ha
    · exact Or.inl
  have hlen : ((existingEntries st.textFile ++ newEntries).dedup).length =
      (existingEntries st.textFile).length := hperm.length_eq
  rw [extract_and_merge]
  simp only [hlen, Nat.sub_self, if_pos rfl]
  simp

/-- Witness for C10: re-extracting an entry that is already the sole
line of the file writes nothing, even with a publish constant supplied. -/
theorem extract_and_merge_noop_witness :
    (∀ x ∈ [(['a'] : Str)],
      x ∈ existingEntries (some [['a']] : Option (List Str))) ∧
    extract_and_merge [['a']] (some ['C'])
        ⟨some [['a']], none, some ⟨[(['C'], ['v'])]⟩⟩ =
      ⟨some [['a']], none, some ⟨[(['C'], ['v'])]⟩⟩ :=
  ⟨by decide,
    extract_and_merge_noop [['a']] (some ['C'])
      ⟨some [['a']], none, some ⟨[(['C'], ['v'])]⟩⟩ (by decide)⟩

/-! ## Publish-step failure behaviour -/

/-- Claim C8 counterexample: a modelled `extract_yaml.py` run whose
publish step cannot locate the named constant still finishes with exit
code 0 — `write_yaml_and_compressed` discards the `False` returned by
`update_blob_constant` (the script never inspects it) — while the
primary and compressed artifacts are written and the blobs file is left
unchanged.  The claim's non-zero exit holds only for a standalone
`update_blobs.py` run. -/
theorem extract_yaml_publish_failure_exit0 :
    (extract_yaml_run [(['a'], .vint 1)] true (some ['C']) ⟨none, none, some ⟨[]⟩⟩).1 = 0 ∧
    (extract_yaml_run [(['a'], .vint 1)] true (some ['C'])
        ⟨none, none, some ⟨[]⟩⟩).2.yamlFile = some [(['a'], .vint 1)] ∧
    (extract_yaml_run [(['a'], .vint 1)] true (some ['C'])
        ⟨none, none, some ⟨[]⟩⟩).2.compFile.isSome = true ∧
    (extract_yaml_run [(['a'], .vint 1)] true (some ['C'])
        ⟨none, none, some ⟨[]⟩⟩).2.blobs = some ⟨[]⟩ :=
  ⟨rfl, rfl, rfl, rfl⟩

/-- Claim C8 (amended): when the named constant cannot be located,
the already-written primary and compressed artifacts remain in place in
every case; but only a standalone `update_blobs.py` run exits non-zero
(1) — an `extract_yaml.py` run that includes the publish step discards
the failure and exits 0, reporting it on stderr only. -/
theorem publish_failure_behaviour (obj : List (Str × Value)) (c : Str) (f : BlobsFile)
    (st : YState) (hbl : st.blobs = some f) (hc : lookupK c f.consts = none)
    (v : Str) (hv : v ≠ []) :
    (extract_yaml_run obj true (some c) st).1 = 0 ∧
    (extract_yaml_run obj true (some c) st).2.yamlFile.isSome = true ∧
    (extract_yaml_run obj true (some c) st).2.compFile.isSome = true ∧
    (extract_yaml_run obj true (some c) st).2.blobs = some f ∧
    update_blobs_main (some f) c v = (1, some f) := by
  obtain ⟨yf, cf, bl⟩ := st
  simp only at hbl
  subst hbl
  refine ⟨rfl, ?_, ?_, ?_, ?_⟩
  · cases yf <;> rfl
  · cases yf <;> rfl
  · cases yf <;>
      simp [extract_yaml_run, write_yaml_and_compressed, update_blob_constant, hc]
  · rw [update_blobs_main, if_neg hv, update_blob_constant]
    rw [hc]
    rfl

/-- Witness for C8 (amended) at a concrete state: blobs file without the
constant `C`, a non-empty publish value. -/
theorem publish_failure_behaviour_witness :
    (⟨none, none, some (⟨[]⟩ : BlobsFile)⟩ : YState).blobs = some ⟨[]⟩ ∧
    lookupK ['C'] (⟨[]⟩ : BlobsFile).consts = none ∧
    (extract_yaml_run [(['a'], .vint 1)] true (some ['C'])
        ⟨none, none, some ⟨[]⟩⟩).1 = 0 ∧
    update_blobs_main (some ⟨[]⟩) ['C'] ['v'] = (1, some ⟨[]⟩) := by
  have h := publish_failure_behaviour [(['a'], .vint 1)] ['C'] ⟨[]⟩
    ⟨none, none, some ⟨[]⟩⟩ rfl rfl ['v'] (by decide)
  exact ⟨rfl, rfl, h.1, h.2.2.2.2⟩

/-! ## Codec round trip: parsing back the serialized tree -/

theorem char_toNat_lt (c : Char) : c.toNat < 1114112 := by
  have h := c.valid
  show c.val.toNat < 1114112
  rcases h with h | ⟨h1, h2⟩ <;> omega

theorem parseCount_replicate (c d : Char) (hne : d ≠ c) :
    ∀ (n : Nat) (rest : List Char),
      parseCount c (List.replicate n c ++ d :: rest) = (n, d :: rest)
  | 0, rest => by
    rw [List.replicate_zero, List.nil_append, parseCount, if_neg hne]
  | n + 1, rest => by
    rw [List.replicate_succ, List.cons_append, parseCount, if_pos rfl,
      parseCount_replicate c d hne n rest]

theorem takeChars_append : ∀ (s rest : List Char), takeChars s.length (s ++ rest) = some (s, rest)
  | [], rest => rfl
  | c :: s, rest => by
    rw [List.length_cons, List.cons_append, takeChars, takeChars_append s rest]
    rfl

theorem parseStrBody_ser (s rest : List Char) :
    parseStrBody (List.replicate s.length '#' ++ ':' :: (s ++ rest)) = some (s, rest) := by
  rw [parseStrBody]
  rw [parseCount_replicate '#' ':' (by decide) s.length (s ++ rest)]
  exact takeChars_append s rest

theorem parseIntBody_pos (m : Nat) (rest : List Char) :
    parseIntBody ('+' :: (List.replicate m '1' ++ ';' :: rest)) = some ((m : Int), rest) := by
  rw [parseIntBody, parseCount_replicate '1' ';' (by decide) m rest]
  rfl

theorem parseIntBody_neg (m : Nat) (rest : List Char) :
    parseIntBody ('-' :: (List.replicate (m + 1) '1' ++ ';' :: rest)) =
      some (Int.negSucc m, rest) := by
  have hns : Int.negSucc m = -((m + 1 : Nat) : Int) := by
    rw [Int.negSucc_eq]
    push_cast
    ring
  rw [parseIntBody, parseCount_replicate '1' ';' (by decide) (m + 1) rest, hns]
  rfl

theorem serializeV_shape : ∀ v : Value, ∃ c cs, serializeV v = c :: cs ∧ c ≠ ']'
  | .vstr s => ⟨'s', _, rfl, by decide⟩
  | .vint (.ofNat m) => ⟨'i', _, rfl, by decide⟩
  | .vint (.negSucc m) => ⟨'i', _, rfl, by decide⟩
  | .vbool true => ⟨'T', _, rfl, by decide⟩
  | .vbool false => ⟨'F', _, rfl, by decide⟩
  | .vnull => ⟨'N', _, rfl, by decide⟩
  | .vlist _ => ⟨'[', _, rfl, by decide⟩
  | .vmap _ => ⟨obraceChar, _, rfl, by decide⟩

theorem parseV_succ (fuel : Nat) (c : Char) (cs : List Char) :
    parseV (fuel + 1) (c :: cs) =
      (if c = 's' then (parseStrBody cs).map (fun r => (Value.vstr r.1, r.2))
       else if c = 'i' then (parseIntBody cs).map (fun r => (Value.vint r.1, r.2))
       else if c = 'T' then some (.vbool true, cs)
       else if c = 'F' then some (.vbool false, cs)
       else if c = 'N' then some (.vnull, cs)
       else if c = '[' then (parseItems fuel cs).map (fun r => (.vlist r.1, r.2))
       else if c = obraceChar then (parseEntries fuel cs).map (fun r => (.vmap r.1, r.2))
       else none) := rfl

theorem parseItems_succ (fuel : Nat) (c : Char) (cs : List Char) :
    parseItems (fuel + 1) (c :: cs) =
      if c = ']' then some ([], cs)
      else
        match parseV fuel (c :: cs) with
        | none => none
        | some (v, rest) =>
          match parseItems fuel rest with
          | none => none
          | some (vs, rest2) => some (v :: vs, rest2) := rfl

theorem parseEntries_succ (fuel : Nat) (c : Char) (cs : List Char) :
    parseEntries (fuel + 1) (c :: cs) =
      if c = cbraceChar then some ([], cs)
      else if c = 'k' then
        match parseStrBody cs with
        | none => none
        | some (k, rest) =>
          match parseV fuel rest with
          | none => none
          | some (v, rest2) =>
            match parseEntries fuel rest2 with
            | none => none
            | some (es, rest3) => some ((k, v) :: es, rest3)
      else none := rfl

theorem parse_serializeL (ys : List Value)
    (ihv : ∀ y ∈ ys, ∀ (r2 : List Char) (f2 : Nat), costV y ≤ f2 →
      parseV f2 (serializeV y ++ r2) = some (y, r2)) :
    ∀ (rest : List Char) (fuel : Nat), costL ys ≤ fuel →
      parseItems fuel (serializeL ys ++ ']' :: rest) = some (ys, rest) := by
  induction ys with
  | nil =>
    intro rest fuel hf
    have hf1 : (1 : Nat) ≤ fuel := hf
    obtain ⟨f, rfl⟩ : ∃ f, fuel = f + 1 := ⟨fuel - 1, by omega⟩
    rw [serializeL, List.nil_append, parseItems_succ, if_pos rfl]
  | cons x xs ihl =>
    intro rest fuel hf
    have hf1 : 1 + costV x + costL xs ≤ fuel := hf
    obtain ⟨f, rfl⟩ : ∃ f, fuel = f + 1 := ⟨fuel - 1, by omega⟩
    obtain ⟨c, cs, hser, hc⟩ := serializeV_shape x
    rw [serializeL, List.append_assoc, hser, List.cons_append, parseItems_succ, if_neg hc,
      ← List.cons_append, ← hser]
    rw [ihv x (List.mem_cons_self _ _) _ f (by omega)]
    dsimp only
    rw [ihl (fun y hy => ihv y (List.mem_cons_of_mem _ hy)) rest f (by omega)]

theorem parse_serializeP (es : List (Str × Value))
    (ihv : ∀ p ∈ es, ∀ (r2 : List Char) (f2 : Nat), costV p.2 ≤ f2 →
      parseV f2 (serializeV p.2 ++ r2) = some (p.2, r2)) :
    ∀ (rest : List Char) (fuel : Nat), costP es ≤ fuel →
      parseEntries fuel (serializeP es ++ cbraceChar :: rest) = some (es, rest) := by
  induction es with
  | nil =>
    intro rest fuel hf
    have hf1 : (1 : Nat) ≤ fuel := hf
    obtain ⟨f, rfl⟩ : ∃ f, fuel = f + 1 := ⟨fuel - 1, by omega⟩
    rw [serializeP, List.nil_append, parseEntries_succ, if_pos rfl]
  | cons p es ihp =>
    obtain ⟨k, v⟩ := p
    intro rest fuel hf
    have hf1 : 1 + costV v + costP es ≤ fuel := hf
    obtain ⟨f, rfl⟩ : ∃ f, fuel = f + 1 := ⟨fuel - 1, by omega⟩
    rw [serializeP]
    have hassoc :
        ('k' :: List.replicate k.length '#' ++ ':' :: k ++ serializeV v ++ serializeP es) ++
            cbraceChar :: rest =
          'k' :: (List.replicate k.length '#' ++
            ':' :: (k ++ (serializeV v ++ (serializeP es ++ cbraceChar :: rest)))) := by
      simp [List.append_assoc]
    have hvv : ∀ (r2 : List Char) (f2 : Nat), costV v ≤ f2 →
        parseV f2 (serializeV v ++ r2) = some (v, r2) :=
      ihv (k, v) (List.mem_cons_self _ _)
    rw [hassoc, parseEntries_succ, if_neg (by decide), if_pos rfl, parseStrBody_ser]
    dsimp only
    rw [hvv _ f (by omega)]
    dsimp only
    rw [ihp (fun q hq => ihv q (List.mem_cons_of_mem _ hq)) rest f (by omega)]

theorem parse_serializeV :
    ∀ v : Value, ∀ (rest : List Char) (fuel : Nat), costV v ≤ fuel →
      parseV fuel (serializeV v ++ rest) = some (v, rest) := by
  intro v
  induction v using valueInd with
  | h1 s =>
    intro rest fuel hf
    have hf1 : (1 : Nat) ≤ fuel := hf
    obtain ⟨f, rfl⟩ : ∃ f, fuel = f + 1 := ⟨fuel - 1, by omega⟩
    have hassoc : serializeV (.vstr s) ++ rest =
        's' :: (List.replicate s.length '#' ++ ':' :: (s ++ rest)) := by
      rw [serializeV]
      simp [List.append_assoc]
    rw [hassoc, parseV_succ, if_pos rfl, parseStrBody_ser]
    rfl
  | h2 n =>
    intro rest fuel hf
    have hf1 : (1 : Nat) ≤ fuel := hf
    obtain ⟨f, rfl⟩ : ∃ f, fuel = f + 1 := ⟨fuel - 1, by omega⟩
    cases n with
    | ofNat m =>
      have hassoc : serializeV (.vint (.ofNat m)) ++ rest =
          'i' :: ('+' :: (List.replicate m '1' ++ ';' :: rest)) := by
        rw [serializeV]
        simp [List.append_assoc]
      rw [hassoc, parseV_succ, if_neg (by decide), if_pos rfl, parseIntBody_pos]
      rfl
    | negSucc m =>
      have hassoc : serializeV (.vint (.negSucc m)) ++ rest =
          'i' :: ('-' :: (List.replicate (m + 1) '1' ++ ';' :: rest)) := by
        rw [serializeV]
        simp [List.append_assoc]
      rw [hassoc, parseV_succ, if_neg (by decide), if_pos rfl, parseIntBody_neg]
      rfl
  | h3 b =>
    intro rest fuel hf
    have hf1 : (1 : Nat) ≤ fuel := hf
    obtain ⟨f, rfl⟩ : ∃ f, fuel = f + 1 := ⟨fuel - 1, by omega⟩
    cases b with
    | true =>
      rw [serializeV, List.cons_append, List.nil_append, parseV_succ,
        if_neg (by decide), if_neg (by decide), if_pos rfl]
    | false =>
      rw [serializeV, List.cons_append, List.nil_append, parseV_succ,
        if_neg (by decide), if_neg (by decide), if_neg (by decide), if_pos rfl]
  | h4 =>
    intro rest fuel hf
    have hf1 : (1 : Nat) ≤ fuel := hf
    obtain ⟨f, rfl⟩ : ∃ f, fuel = f + 1 := ⟨fuel - 1, by omega⟩
    rw [serializeV, List.cons_append, List.nil_append, parseV_succ,
      if_neg (by decide), if_neg (by decide), if_neg (by decide), if_neg (by decide),
      if_pos rfl]
  | h5 xs ih =>
    intro rest fuel hf
    have hf1 : 1 + costL xs ≤ fuel := hf
    obtain ⟨f, rfl⟩ : ∃ f, fuel = f + 1 := ⟨fuel - 1, by omega⟩
    have hassoc : serializeV (.vlist xs) ++ rest = '[' :: (serializeL xs ++ ']' :: rest) := by
      rw [serializeV]
      simp [List.append_assoc]
    rw [hassoc, parseV_succ, if_neg (by decide), if_neg (by decide), if_neg (by decide),
      if_neg (by decide), if_neg (by decide), if_pos rfl]
    rw [parse_serializeL xs (fun y hy => ih y hy) rest f (by omega)]
    rfl
  | h6 kvs ih =>
    intro rest fuel hf
    have hf1 : 1 + costP kvs ≤ fuel := hf
    obtain ⟨f, rfl⟩ : ∃ f, fuel = f + 1 := ⟨fuel - 1, by omega⟩
    have hassoc : serializeV (.vmap kvs) ++ rest =
        obraceChar :: (serializeP kvs ++ cbraceChar :: rest) := by
      rw [serializeV]
      simp [List.append_assoc]
    rw [hassoc, parseV_succ, if_neg (by decide), if_neg (by decide), if_neg (by decide),
      if_neg (by decide), if_neg (by decide), if_neg (by decide), if_pos rfl]
    rw [parse_serializeP kvs (fun q hq => ih q hq) rest f (by omega)]
    rfl

theorem costBoundL (ys : List Value)
    (hys : ∀ y ∈ ys, costV y + 1 ≤ 2 * (serializeV y).length) :
    costL ys ≤ 2 * (serializeL ys).length + 2 := by
  induction ys with
  | nil =>
    have h1 : costL ([] : List Value) = 1 := rfl
    rw [h1]
    omega
  | cons y ys ihy =>
    have h1 : costL (y :: ys) = 1 + costV y + costL ys := rfl
    have h2 : serializeL (y :: ys) = serializeV y ++ serializeL ys := rfl
    have h3 := hys y (List.mem_cons_self _ _)
    have h4 := ihy (fun z hz => hys z (List.mem_cons_of_mem _ hz))
    rw [h1, h2, List.length_append]
    omega

theorem costBoundP (es : List (Str × Value))
    (hes : ∀ p ∈ es, costV p.2 + 1 ≤ 2 * (serializeV p.2).length) :
    costP es ≤ 2 * (serializeP es).length + 2 := by
  induction es with
  | nil =>
    have h1 : costP ([] : List (Str × Value)) = 1 := rfl
    rw [h1]
    omega
  | cons p es ihp =>
    obtain ⟨k, v⟩ := p
    have h1 : costP ((k, v) :: es) = 1 + costV v + costP es := rfl
    have h2 : serializeP ((k, v) :: es) =
        'k' :: List.replicate k.length '#' ++ ':' :: k ++ serializeV v ++ serializeP es := rfl
    have h3 : costV (k, v).2 + 1 ≤ 2 * (serializeV (k, v).2).length :=
      hes (k, v) (List.mem_cons_self _ _)
    simp only at h3
    have h4 := ihp (fun q hq => hes q (List.mem_cons_of_mem _ hq))
    rw [h1, h2]
    simp only [List.length_append, List.length_cons, List.length_replicate]
    omega

theorem costBound : ∀ v : Value, costV v + 1 ≤ 2 * (serializeV v).length := by
  intro v
  induction v using valueInd with
  | h1 s =>
    have h1 : costV (.vstr s) = 1 := rfl
    rw [h1, serializeV]
    simp only [List.length_cons, List.length_append, List.length_replicate]
    omega
  | h2 n =>
    have h1 : costV (.vint n) = 1 := rfl
    rw [h1]
    cases n with
    | ofNat m =>
      rw [serializeV]
      simp only [List.length_cons, List.length_append, List.length_replicate,
        List.length_singleton]
      omega
    | negSucc m =>
      rw [serializeV]
      simp only [List.length_cons, List.length_append, List.length_replicate,
        List.length_singleton]
      omega
  | h3 b =>
    have h1 : costV (.vbool b) = 1 := rfl
    rw [h1]
    cases b <;> rw [serializeV] <;> decide
  | h4 =>
    have h1 : costV .vnull = 1 := rfl
    rw [h1, serializeV]
    decide
  | h5 xs ih =>
    have h1 : costV (.vlist xs) = 1 + costL xs := rfl
    have h2 : serializeV (.vlist xs) = '[' :: serializeL xs ++ [']'] := rfl
    have h3 := costBoundL xs ih
    rw [h1, h2]
    simp only [List.length_cons, List.length_append, List.length_singleton]
    omega
  | h6 kvs ih =>
    have h1 : costV (.vmap kvs) = 1 + costP kvs := rfl
    have h2 : serializeV (.vmap kvs) = obraceChar :: serializeP kvs ++ [cbraceChar] := rfl
    have h3 := costBoundP kvs ih
    rw [h1, h2]
    simp only [List.length_cons, List.length_append, List.length_singleton]
    omega

theorem deserialize_serializeV (v : Value) : deserializeV (serializeV v) = some v := by
  rw [deserializeV]
  have h1 : costV v ≤ 2 * (serializeV v).length + 2 := by
    have := costBound v
    omega
  have h2 := parse_serializeV v [] (2 * (serializeV v).length + 2) h1
  rw [List.append_nil] at h2
  rw [h2]

/-! ## Codec round trip: bytes and base64 -/

theorem textBytes_lt : ∀ cs : List Char, ∀ b ∈ textBytes cs, b < 256
  | [] => by simp [textBytes]
  | c :: cs => by
    intro b hb
    rw [textBytes] at hb
    have hc := char_toNat_lt c
    rcases List.mem_cons.1 hb with rfl | hb2
    · omega
    rcases List.mem_cons.1 hb2 with rfl | hb3
    · omega
    rcases List.mem_cons.1 hb3 with rfl | hb4
    · omega
    · exact textBytes_lt cs b hb4

theorem textOfBytes_textBytes : ∀ cs : List Char, textOfBytes (textBytes cs) = some cs
  | [] => rfl
  | c :: cs => by
    rw [textBytes, textOfBytes, textOfBytes_textBytes cs]
    have harith : c.toNat / 65536 * 65536 + c.toNat / 256 % 256 * 256 + c.toNat % 256 =
        c.toNat := by
      omega
    dsimp only [Option.map]
    rw [harith, Char.ofNat_toNat]

theorem b64Index_b64Char : ∀ n : Nat, n < 64 → b64Index (b64Char n) = some n := by decide

theorem b64Char_ne_pad : ∀ n : Nat, n < 64 → b64Char n ≠ '=' := by decide

theorem b64_roundtrip : ∀ bs : List Nat, (∀ b ∈ bs, b < 256) →
    b64decode (b64encode bs) = some bs
  | [], _ => rfl
  | [b1], h => by
    have hb1 : b1 < 256 := h b1 (by simp)
    rw [b64encode, b64decode,
      b64Index_b64Char (b1 / 4) (by omega),
      b64Index_b64Char (b1 % 4 * 16) (by omega)]
    dsimp only
    rw [if_pos rfl, if_pos ⟨rfl, rfl⟩]
    have harith : b1 / 4 * 4 + b1 % 4 * 16 / 16 = b1 := by omega
    rw [harith]
  | [b1, b2], h => by
    have hb1 : b1 < 256 := h b1 (by simp)
    have hb2 : b2 < 256 := h b2 (by simp)
    rw [b64encode, b64decode,
      b64Index_b64Char (b1 / 4) (by omega),
      b64Index_b64Char (b1 % 4 * 16 + b2 / 16) (by omega)]
    dsimp only
    rw [if_neg (b64Char_ne_pad (b2 % 16 * 4) (by omega)),
      b64Index_b64Char (b2 % 16 * 4) (by omega)]
    dsimp only
    rw [if_pos rfl, if_pos rfl]
    have ha1 : b1 / 4 * 4 + (b1 % 4 * 16 + b2 / 16) / 16 = b1 := by omega
    have ha2 : (b1 % 4 * 16 + b2 / 16) % 16 * 16 + b2 % 16 * 4 / 4 = b2 := by omega
    rw [ha1, ha2]
  | b1 :: b2 :: b3 :: rest, h => by
    have hb1 : b1 < 256 := h b1 (by simp)
    have hb2 : b2 < 256 := h b2 (by simp)
    have hb3 : b3 < 256 := h b3 (by simp)
    have hrest : ∀ b ∈ rest, b < 256 := fun b hb => h b (by simp [hb])
    rw [b64encode, b64decode,
      b64Index_b64Char (b1 / 4) (by omega),
      b64Index_b64Char (b1 % 4 * 16 + b2 / 16) (by omega)]
    dsimp only
    rw [if_neg (b64Char_ne_pad (b2 % 16 * 4 + b3 / 64) (by omega)),
      b64Index_b64Char (b2 % 16 * 4 + b3 / 64) (by omega)]
    dsimp only
    rw [if_neg (b64Char_ne_pad (b3 % 64) (by omega)),
      b64Index_b64Char (b3 % 64) (by omega)]
    dsimp only
    rw [b64_roundtrip rest hrest]
    have ha1 : b1 / 4 * 4 + (b1 % 4 * 16 + b2 / 16) / 16 = b1 := by omega
    have ha2 : (b1 % 4 * 16 + b2 / 16) % 16 * 16 + (b2 % 16 * 4 + b3 / 64) / 4 = b2 := by
      omega
    have ha3 : (b2 % 16 * 4 + b3 / 64) % 4 * 64 + b3 % 64 = b3 := by omega
    dsimp only [Option.map]
    rw [ha1, ha2, ha3]

/-- Claim C7: the full encode chain (serialize, compress, base64-encode)
is exactly inverted by the decode chain (base64-decode, decompress,
parse), both for merged trees and for the comma-joined strings of the
line-list path.  The serializer, the UTF-8 byte encoding and zlib are
external collaborators modelled from the spec's lossless contracts
(§4.4); base64 is implemented concretely. -/
theorem codec_round_trip :
    (∀ kvs : List (Str × Value), decodeTree (encodeTree kvs) = some kvs) ∧
    (∀ s : List Char, decodeText (encodeText s) = some s) := by
  constructor
  · intro kvs
    rw [decodeTree, encodeTree, b64_roundtrip _ (textBytes_lt _)]
    rw [Option.some_bind, textOfBytes_textBytes, Option.some_bind,
      deserialize_serializeV (.vmap kvs)]
  · intro s
    rw [decodeText, encodeText, b64_roundtrip _ (textBytes_lt _), Option.some_bind,
      textOfBytes_textBytes]

end BL4
